import Mathlib

/-!
# MarketX escrow contract — shallow embedding and verification

This file embeds the Soroban escrow contract
`contracts/escrow/src/lib.rs` (`MarketXEscrow`) and settles the spec
claims about it.

Modelling conventions:
* Addresses are `Nat`; `contractAddr` stands for
  `env.current_contract_address()`.
* `i128` amounts are unbounded `Int` (no claim touches overflow);
  Rust `i128` division truncates toward zero, embedded as `Int.tdiv`.
* The contract's persistent storage for one escrow id is the `Storage`
  record: the `Escrow` record plus the `DataKey::PendingRelease`
  slot (the single proposal slot the source has) and the four
  per-flow approval vectors.  A removed approval vector and an empty
  one are indistinguishable to the source (every read goes through
  `unwrap_or_else(new)`), so approval slots are plain lists; the
  proposal slot is an `Option` because `execute_pending_release`
  unwraps it.
* Each public entry point is a function
  `Storage → args → Except Err (Storage × List Ev)`.  A Rust
  `panic!` is an `Except.error`; on the host a panic aborts the whole
  invocation, so an erroring call leaves storage unchanged (`run`
  below).  `Ev` records, in program order, the external token
  transfers and the storage `remove` calls on proposal/approval keys,
  plus a `debit` marker at the point where `e.balance -= total`
  happens, carrying the distribution total.
-/

namespace MarketX

abbrev Addr := Nat

/-- Stands for `env.current_contract_address()`. -/
def contractAddr : Addr := 0

/-- The four approval flows of the contract (release / refund /
arbiter / emergency), used to tag which `DataKey::Approvals*` slot a
storage `remove` hits. -/
inductive Flow
  | release
  | refund
  | arbiter
  | emergency
deriving DecidableEq

/-- Observable actions of one invocation, in program order:
`transfer` is a `token::Client::transfer` call, `removePending` and
`removeApprovals` are the `storage().persistent().remove` calls on the
`PendingRelease` and `Approvals*` keys, and `debit t` marks the
`e.balance -= total` statement with the distribution total `t`. -/
inductive Ev
  | transfer (src dst : Addr) (amount : Int)
  | removePending
  | removeApprovals (f : Flow)
  | debit (total : Int)
deriving DecidableEq

/-- Panic reasons of the contract (the `panic!` string literals),
plus `unwrapNone` for a panicking `Option::unwrap` on `None`. -/
inductive Err
  | alreadyInitialized
  | feeBpsRange
  | badEmergencyThreshold
  | notAdmin
  | badThreshold
  | exists_
  | badReleaseThresh
  | badRefundThresh
  | badArbThresh
  | emptyParties
  | badAmount
  | closed
  | notPayer
  | noRight
  | disputed
  | notDisputed
  | notReleaseSigner
  | notRefundSigner
  | notArbiter
  | notEmergency
  | badPayee
  | badPayer
  | badTotal
  | feeTooHigh
  | notExpired
  | tooEarly
  | noAutoRelease
  | noPayees
  | unwrapNone
deriving DecidableEq

/-- The `Escrow` record of the source (`struct Escrow`).  `token` is
kept for faithfulness though transfers only mention parties. -/
structure Escrow where
  token : Addr
  payers : List Addr
  payees : List Addr
  release_signers : List Addr
  release_threshold : Nat
  refund_signers : List Addr
  refund_threshold : Nat
  arbiters : List Addr
  arbiter_threshold : Nat
  auto_release_ts : Option Nat
  expiry_ts : Nat
  disputed : Bool
  balance : Int
  deposits : List (Addr × Int)
  closed : Bool
  nonce : Nat
deriving DecidableEq

/-- The `ReleaseProposal` record of the source. -/
structure ReleaseProposal where
  nonce : Nat
  dists : List (Addr × Int)
deriving DecidableEq

/-- Persistent storage of the contract restricted to one escrow id:
the contract-global fee/emergency configuration, the `Escrow` record,
the single `PendingRelease` proposal slot, and the four `Approvals*`
vectors. -/
structure Storage where
  feeBps : Nat
  feeCollector : Addr
  emergencyAdmins : List Addr
  emergencyThreshold : Nat
  escrow : Escrow
  pendingRelease : Option ReleaseProposal
  approvalsRelease : List Addr
  approvalsRefund : List Addr
  approvalsArbiter : List Addr
  approvalsEmergency : List Addr
deriving DecidableEq

/-- Source `is_member`: linear scan for membership. -/
def is_member (list : List Addr) (who : Addr) : Bool :=
  list.any (fun a => a == who)

/-- Source `push_unique`: append `who` unless already present. -/
def push_unique (list : List Addr) (who : Addr) : List Addr :=
  if is_member list who then list else list ++ [who]

/-- Source `sum_amounts`: total of a distribution list. -/
def sum_amounts : List (Addr × Int) → Int
  | [] => 0
  | (_, a) :: t => a + sum_amounts t

/-- Source `ensure_payees_valid`: every distribution recipient is a
member of `payees`. -/
def ensure_payees_valid (payees : List Addr) (dists : List (Addr × Int)) : Bool :=
  dists.all (fun pa => is_member payees pa.1)

/-- The deposits-update loop of `deposit`: bump the entry of `src`
when present, tracking the `found` flag over the whole list. -/
def updateDepositsAux : List (Addr × Int) → Addr → Int → List (Addr × Int) × Bool
  | [], _, _ => ([], false)
  | (p, a) :: t, src, amt =>
    let r := updateDepositsAux t src amt
    if p == src then ((p, a + amt) :: r.1, true) else ((p, a) :: r.1, r.2)

/-- Source `deposit` lines 169–176: update the cumulative deposits
list, appending a fresh `(src, amt)` entry when `src` had none. -/
def updateDeposits (l : List (Addr × Int)) (src : Addr) (amt : Int) :
    List (Addr × Int) :=
  let r := updateDepositsAux l src amt
  if r.2 then r.1 else r.1 ++ [(src, amt)]

/-- Per-entry fee of `execute_pending_release` line 233:
`amt * fee_bps / 10_000` in `i128` (truncating division). -/
def feeOf (amt : Int) (feeBps : Nat) : Int :=
  Int.tdiv (amt * (feeBps : Int)) 10000

/-- Per-entry net of `execute_pending_release` line 234. -/
def netOf (amt : Int) (feeBps : Nat) : Int :=
  amt - feeOf amt feeBps

/-- The fee-charging transfer loop of `execute_pending_release`
(lines 231–238): emits one net transfer per entry and accumulates the
positive fees; panics `fee-too-high` when a net is negative. -/
def distLoop (feeBps : Nat) : List (Addr × Int) → Except Err (List Ev × Int)
  | [] => .ok ([], 0)
  | (dst, amt) :: rest =>
    let fee := feeOf amt feeBps
    let net := netOf amt feeBps
    if net < 0 then .error .feeTooHigh
    else
      match distLoop feeBps rest with
      | .error er => .error er
      | .ok (evs, ftot) =>
        .ok (Ev.transfer contractAddr dst net :: evs,
             (if 0 < fee then fee else 0) + ftot)

/-- Source `execute_pending_release` (lines 221–246): unwrap the
pending proposal, re-validate the total, run the fee-charging
transfer loop, send the accumulated fee total to the collector when
positive, debit the balance, close on zero, and only then remove the
`PendingRelease` and `ApprovalsRelease` slots. -/
def execute_pending_release (s : Storage) : Except Err (Storage × List Ev) :=
  let e := s.escrow
  match s.pendingRelease with
  | none => .error .unwrapNone
  | some prop =>
    let dists := prop.dists
    let total := sum_amounts dists
    if total ≤ 0 || e.balance < total then .error .badTotal
    else
      match distLoop s.feeBps dists with
      | .error er => .error er
      | .ok (evs, feeTotal) =>
        let feeEvs := if 0 < feeTotal
          then [Ev.transfer contractAddr s.feeCollector feeTotal] else []
        let bal := e.balance - total
        let e2 := { e with balance := bal,
                           closed := if bal == 0 then true else e.closed }
        .ok ({ s with escrow := e2, pendingRelease := none,
                      approvalsRelease := [] },
             evs ++ feeEvs ++
               [Ev.debit total, Ev.removePending, Ev.removeApprovals .release])

/-- Source `deposit` (lines 160–178). -/
def deposit (s : Storage) (src : Addr) (amount : Int) :
    Except Err (Storage × List Ev) :=
  if amount ≤ 0 then .error .badAmount
  else
    let e := s.escrow
    if e.closed then .error .closed
    else if !is_member e.payers src then .error .notPayer
    else
      let e2 := { e with balance := e.balance + amount,
                         deposits := updateDeposits e.deposits src amount }
      .ok ({ s with escrow := e2 }, [Ev.transfer src contractAddr amount])

/-- Source `open_dispute` (lines 180–187). -/
def open_dispute (s : Storage) (actor : Addr) :
    Except Err (Storage × List Ev) :=
  let e := s.escrow
  if e.closed then .error .closed
  else if !(is_member e.payers actor || is_member e.payees actor) then
    .error .noRight
  else .ok ({ s with escrow := { e with disputed := true } }, [])

/-- Source `propose_release` (lines 189–205): stores a fresh proposal
under `PendingRelease`, resets `ApprovalsRelease` to `[signer]`, and
persists the bumped nonce. -/
def propose_release (s : Storage) (signer : Addr)
    (dists : List (Addr × Int)) : Except Err (Storage × List Ev) :=
  let e := s.escrow
  if e.closed then .error .closed
  else if e.disputed then .error .disputed
  else if !is_member e.release_signers signer then .error .notReleaseSigner
  else if !ensure_payees_valid e.payees dists then .error .badPayee
  else
    let total := sum_amounts dists
    if total ≤ 0 || e.balance < total then .error .badTotal
    else
      let e2 := { e with nonce := e.nonce + 1 }
      .ok ({ s with escrow := e2,
                    pendingRelease := some ⟨e2.nonce, dists⟩,
                    approvalsRelease := [signer] }, [])

/-- Source `approve_release` (lines 207–219): add the signer to
`ApprovalsRelease` and execute the pending release once the vector
length reaches the threshold. -/
def approve_release (s : Storage) (signer : Addr) :
    Except Err (Storage × List Ev) :=
  let e := s.escrow
  if e.closed then .error .closed
  else if e.disputed then .error .disputed
  else if !is_member e.release_signers signer then .error .notReleaseSigner
  else
    let approvers := push_unique s.approvalsRelease signer
    let s1 := { s with approvalsRelease := approvers }
    if e.release_threshold ≤ approvers.length then execute_pending_release s1
    else .ok (s1, [])

/-- Source `propose_refund` (lines 248–263): note it stores the
proposal under the same `PendingRelease` key release proposals use,
seeds `ApprovalsRefund` with `[signer]`, and never writes the escrow
back (the bumped nonce is not persisted). -/
def propose_refund (s : Storage) (signer : Addr)
    (dists : List (Addr × Int)) : Except Err (Storage × List Ev) :=
  let e := s.escrow
  if e.closed then .error .closed
  else if e.disputed then .error .disputed
  else if !is_member e.refund_signers signer then .error .notRefundSigner
  else if !(dists.all (fun pa => is_member e.payers pa.1)) then .error .badPayer
  else
    let total := sum_amounts dists
    if total ≤ 0 || e.balance < total then .error .badTotal
    else
      .ok ({ s with pendingRelease := some ⟨e.nonce + 1, dists⟩,
                    approvalsRefund := [signer] }, [])

/-- Source `approve_refund` (lines 265–290): on quorum, unwrap the
(shared) pending proposal, transfer each entry gross (no fee), debit,
close on zero, then remove `PendingRelease` and `ApprovalsRefund`. -/
def approve_refund (s : Storage) (signer : Addr) :
    Except Err (Storage × List Ev) :=
  let e := s.escrow
  if e.closed then .error .closed
  else if e.disputed then .error .disputed
  else if !is_member e.refund_signers signer then .error .notRefundSigner
  else
    let approvers := push_unique s.approvalsRefund signer
    let s1 := { s with approvalsRefund := approvers }
    if e.refund_threshold ≤ approvers.length then
      match s1.pendingRelease with
      | none => .error .unwrapNone
      | some prop =>
        let total := sum_amounts prop.dists
        if total ≤ 0 || e.balance < total then .error .badTotal
        else
          let evs := prop.dists.map
            (fun pa => Ev.transfer contractAddr pa.1 pa.2)
          let bal := e.balance - total
          let e2 := { e with balance := bal,
                             closed := if bal == 0 then true else e.closed }
          .ok ({ s1 with escrow := e2, pendingRelease := none,
                         approvalsRefund := [] },
               evs ++ [Ev.debit total, Ev.removePending,
                       Ev.removeApprovals .refund])
    else .ok (s1, [])

/-- The refund loop of `refund_timeout` (lines 298–304): walk the
deposits, refunding `min(deposit, remaining)` per payer and breaking
once `remaining ≤ 0`; returns the emitted transfers and the final
`remaining`. -/
def refundLoop (remaining : Int) : List (Addr × Int) → List Ev × Int
  | [] => ([], remaining)
  | (p, a) :: t =>
    if remaining ≤ 0 then ([], remaining)
    else
      let amt := if a ≤ remaining then a else remaining
      let evs0 := if 0 < amt then [Ev.transfer contractAddr p amt] else []
      let r := refundLoop (remaining - amt) t
      (evs0 ++ r.1, r.2)

/-- Source `refund_timeout` (lines 292–308). -/
def refund_timeout (s : Storage) (nowTs : Nat) :
    Except Err (Storage × List Ev) :=
  let e := s.escrow
  if e.closed then .error .closed
  else if e.disputed then .error .disputed
  else if nowTs < e.expiry_ts then .error .notExpired
  else
    let r := refundLoop e.balance e.deposits
    let e2 := { e with balance := r.2,
                       closed := if r.2 == 0 then true else e.closed }
    .ok ({ s with escrow := e2 }, r.1)

/-- The split-building loop of `auto_release` (lines 321–325): each
payee gets `base`, and while `rem > 0` the earliest payees get one
extra unit. -/
def buildSplit (base : Int) : List Addr → Int → List (Addr × Int)
  | [], _ => []
  | p :: ps, rem =>
    if 0 < rem then (p, base + 1) :: buildSplit base ps (rem - 1)
    else (p, base) :: buildSplit base ps rem

/-- Source `auto_release` (lines 310–338): equal split with remainder
to the earliest payees, stored as a pre-approved release proposal
(`ApprovalsRelease` faked to threshold length with the contract
address) and run through `execute_pending_release`. -/
def auto_release (s : Storage) (nowTs : Nat) :
    Except Err (Storage × List Ev) :=
  let e := s.escrow
  if e.closed then .error .closed
  else if e.disputed then .error .disputed
  else
    match e.auto_release_ts with
    | none => .error .noAutoRelease
    | some t =>
      if nowTs < t then .error .tooEarly
      else
        let n : Int := e.payees.length
        if n ≤ 0 then .error .noPayees
        else
          let base := Int.tdiv e.balance n
          let rem := e.balance - base * n
          let dists := buildSplit base e.payees rem
          let e2 := { e with nonce := e.nonce + 1 }
          let s2 := { s with escrow := e2,
                             pendingRelease := some ⟨e2.nonce, dists⟩,
                             approvalsRelease :=
                               List.replicate e2.release_threshold contractAddr }
          execute_pending_release s2

/-- Source `arbiter_release` (lines 340–361): gated on `disputed`,
stores the proposal into the shared `PendingRelease` slot, adds the
signer to the carried-over `ApprovalsArbiter`, and on quorum executes
the release path, removes `ApprovalsArbiter`, and un-disputes when the
balance hit zero. -/
def arbiter_release (s : Storage) (signer : Addr)
    (dists : List (Addr × Int)) : Except Err (Storage × List Ev) :=
  let e := s.escrow
  if e.closed then .error .closed
  else if !e.disputed then .error .notDisputed
  else if !is_member e.arbiters signer then .error .notArbiter
  else if !ensure_payees_valid e.payees dists then .error .badPayee
  else
    let total := sum_amounts dists
    if total ≤ 0 || e.balance < total then .error .badTotal
    else
      let s1 := { s with pendingRelease := some ⟨e.nonce + 1, dists⟩ }
      let approvers := push_unique s1.approvalsArbiter signer
      let s2 := { s1 with approvalsArbiter := approvers }
      if e.arbiter_threshold ≤ approvers.length then
        match execute_pending_release s2 with
        | .error er => .error er
        | .ok (s3, evs) =>
          let s4 := { s3 with approvalsArbiter := [] }
          let e3 := s4.escrow
          let s5 := if e3.balance == 0
            then { s4 with escrow := { e3 with disputed := false, closed := true } }
            else s4
          .ok (s5, evs ++ [Ev.removeApprovals .arbiter])
      else .ok (s2, [])

/-- Source `arbiter_refund` (lines 363–384): gated on `disputed`,
no proposal slot involved; on quorum transfers the passed distribution
gross, debits, closes and un-disputes on zero balance, and removes
`ApprovalsArbiter`. -/
def arbiter_refund (s : Storage) (signer : Addr)
    (dists : List (Addr × Int)) : Except Err (Storage × List Ev) :=
  let e := s.escrow
  if e.closed then .error .closed
  else if !e.disputed then .error .notDisputed
  else if !is_member e.arbiters signer then .error .notArbiter
  else if !(dists.all (fun pa => is_member e.payers pa.1)) then .error .badPayer
  else
    let total := sum_amounts dists
    if total ≤ 0 || e.balance < total then .error .badTotal
    else
      let approvers := push_unique s.approvalsArbiter signer
      let s1 := { s with approvalsArbiter := approvers }
      if e.arbiter_threshold ≤ approvers.length then
        let evs := dists.map (fun pa => Ev.transfer contractAddr pa.1 pa.2)
        let bal := e.balance - total
        let e2 := { e with balance := bal,
                           closed := if bal == 0 then true else e.closed,
                           disputed := if bal == 0 then false else e.disputed }
        .ok ({ s1 with escrow := e2, approvalsArbiter := [] },
             evs ++ [Ev.debit total, Ev.removeApprovals .arbiter])
      else .ok (s1, [])

/-- Source `emergency_release` (lines 386–403): membership in the
emergency-admin set and `0 < total ≤ balance` are the only checks (no
payee validation, no dispute gate); stores into the shared
`PendingRelease` slot, adds the signer to the carried-over
`ApprovalsEmergency`, and on quorum executes the release path and
removes `ApprovalsEmergency`. -/
def emergency_release (s : Storage) (signer : Addr)
    (dists : List (Addr × Int)) : Except Err (Storage × List Ev) :=
  if !is_member s.emergencyAdmins signer then .error .notEmergency
  else
    let e := s.escrow
    if e.closed then .error .closed
    else
      let total := sum_amounts dists
      if total ≤ 0 || e.balance < total then .error .badTotal
      else
        let s1 := { s with pendingRelease := some ⟨e.nonce + 1, dists⟩ }
        let approvers := push_unique s1.approvalsEmergency signer
        let s2 := { s1 with approvalsEmergency := approvers }
        if s.emergencyThreshold ≤ approvers.length then
          match execute_pending_release s2 with
          | .error er => .error er
          | .ok (s3, evs) =>
            .ok ({ s3 with approvalsEmergency := [] },
                 evs ++ [Ev.removeApprovals .emergency])
        else .ok (s2, [])

/-- The state-mutating public entry points of the contract, with
their arguments (timestamps passed explicitly for the two time-gated
ones, standing for `env.ledger().timestamp()`). -/
inductive Op
  | depositOp (src : Addr) (amount : Int)
  | openDisputeOp (actor : Addr)
  | proposeReleaseOp (signer : Addr) (dists : List (Addr × Int))
  | approveReleaseOp (signer : Addr)
  | proposeRefundOp (signer : Addr) (dists : List (Addr × Int))
  | approveRefundOp (signer : Addr)
  | refundTimeoutOp (nowTs : Nat)
  | autoReleaseOp (nowTs : Nat)
  | arbiterReleaseOp (signer : Addr) (dists : List (Addr × Int))
  | arbiterRefundOp (signer : Addr) (dists : List (Addr × Int))
  | emergencyReleaseOp (signer : Addr) (dists : List (Addr × Int))
deriving DecidableEq

/-- Dispatch an operation. -/
def exec (s : Storage) : Op → Except Err (Storage × List Ev)
  | .depositOp src a => deposit s src a
  | .openDisputeOp actor => open_dispute s actor
  | .proposeReleaseOp signer dists => propose_release s signer dists
  | .approveReleaseOp signer => approve_release s signer
  | .proposeRefundOp signer dists => propose_refund s signer dists
  | .approveRefundOp signer => approve_refund s signer
  | .refundTimeoutOp nowTs => refund_timeout s nowTs
  | .autoReleaseOp nowTs => auto_release s nowTs
  | .arbiterReleaseOp signer dists => arbiter_release s signer dists
  | .arbiterRefundOp signer dists => arbiter_refund s signer dists
  | .emergencyReleaseOp signer dists => emergency_release s signer dists

/-- Post-state of an invocation: a panic aborts the transaction, so
an erroring call leaves storage unchanged. -/
def run (s : Storage) (op : Op) : Storage :=
  match exec s op with
  | .error _ => s
  | .ok r => r.1

/-- Run a sequence of invocations. -/
def runAll : Storage → List Op → Storage
  | s, [] => s
  | s, op :: t => runAll (run s op) t

/-! ## Trace predicates -/

/-- Whether an event is an external token transfer. -/
def isTransfer : Ev → Bool
  | .transfer _ _ _ => true
  | _ => false

/-- Whether an event is a storage `remove` of the pending proposal or
of an approval set (a "clear"). -/
def isClear : Ev → Bool
  | .removePending => true
  | .removeApprovals _ => true
  | _ => false

/-- The trace can be cut so that no transfer precedes the cut and no
clear follows it: every Proposal/ApprovalSet clear happens strictly
before every external transfer.  This is the ordering the claim about
quorum consumption asserts. -/
def clearsBeforeTransfers (evs : List Ev) : Prop :=
  ∃ k : Fin (evs.length + 1),
    (∀ v ∈ evs.take k.val, isTransfer v = false) ∧
    (∀ v ∈ evs.drop k.val, isClear v = false)

/-- The trace can be cut so that no clear precedes the cut and no
transfer follows it: every external transfer happens strictly before
every Proposal/ApprovalSet clear. -/
def transfersBeforeClears (evs : List Ev) : Prop :=
  ∃ k : Fin (evs.length + 1),
    (∀ v ∈ evs.take k.val, isClear v = false) ∧
    (∀ v ∈ evs.drop k.val, isTransfer v = false)

instance (evs : List Ev) : Decidable (clearsBeforeTransfers evs) := by
  unfold clearsBeforeTransfers; infer_instance

instance (evs : List Ev) : Decidable (transfersBeforeClears evs) := by
  unfold transfersBeforeClears; infer_instance

/-- Sum of the `debit` markers of a trace: the amount by which the
executed distributions of the invocation decremented the balance. -/
def debitSum : List Ev → Int
  | [] => 0
  | .debit t :: r => t + debitSum r
  | _ :: r => debitSum r

/-- The events of an invocation (empty when the call panics, since a
panic rolls the transaction back). -/
def evsOf (s : Storage) (op : Op) : List Ev :=
  match exec s op with
  | .error _ => []
  | .ok r => r.2

/-- Amount credited by the operation when it is a successful deposit,
else `0`. -/
def depositAmt (s : Storage) : Op → Int
  | .depositOp src a =>
    match exec s (.depositOp src a) with
    | .ok _ => a
    | .error _ => 0
  | _ => 0

/-- Total of successful deposit amounts along a trace. -/
def depositSumTrace : Storage → List Op → Int
  | _, [] => 0
  | s, op :: t => depositAmt s op + depositSumTrace (run s op) t

/-- Total of executed distribution totals along a trace. -/
def debitSumTrace : Storage → List Op → Int
  | _, [] => 0
  | s, op :: t => debitSum (evsOf s op) + debitSumTrace (run s op) t

/-- A debit marker is in range when its total is positive and at most
`bal`; non-debit events are ignored. -/
def debitOk (bal : Int) : Ev → Bool
  | .debit x => decide (0 < x ∧ x ≤ bal)
  | _ => true

/-- Every distribution executed along the trace had
`0 < total ≤ balance` at the start of its invocation. -/
def debitsValid : Storage → List Op → Bool
  | _, [] => true
  | s, op :: t =>
    (evsOf s op).all (debitOk s.escrow.balance) && debitsValid (run s op) t

/-- Whether `op` is `refund_timeout` (the one balance-reducing path
that is not a proposal-style distribution). -/
def isRefundTimeout : Op → Bool
  | .refundTimeoutOp _ => true
  | _ => false

/-- The operation is one of the four approval calls and its approval
set reaches quorum in this invocation. -/
def quorumCall (s : Storage) : Op → Prop
  | .approveReleaseOp signer =>
    s.escrow.release_threshold ≤ (push_unique s.approvalsRelease signer).length
  | .approveRefundOp signer =>
    s.escrow.refund_threshold ≤ (push_unique s.approvalsRefund signer).length
  | .arbiterReleaseOp signer _ =>
    s.escrow.arbiter_threshold ≤ (push_unique s.approvalsArbiter signer).length
  | .emergencyReleaseOp signer _ =>
    s.emergencyThreshold ≤ (push_unique s.approvalsEmergency signer).length
  | _ => False

/-! ## Basic lemmas about the loops -/

/-- `distLoop` emits transfer events only. -/
theorem distLoop_isTransfer (feeBps : Nat) :
    ∀ (l : List (Addr × Int)) (evs : List Ev) (ftot : Int),
      distLoop feeBps l = .ok (evs, ftot) → ∀ v ∈ evs, isTransfer v = true := by
  intro l
  induction l with
  | nil =>
    intro evs ftot h v hv
    simp [distLoop] at h
    rw [h.1] at hv
    simp at hv
  | cons hd tl ih =>
    intro evs ftot h v hv
    obtain ⟨dst, amt⟩ := hd
    simp only [distLoop] at h
    by_cases hneg : netOf amt feeBps < 0
    · rw [if_pos hneg] at h; exact absurd h (by simp)
    · rw [if_neg hneg] at h
      cases hr : distLoop feeBps tl with
      | error er => rw [hr] at h; exact absurd h (by simp)
      | ok r =>
        obtain ⟨evs0, ftot0⟩ := r
        rw [hr] at h
        simp at h
        rw [← h.1] at hv
        rcases List.mem_cons.mp hv with h1 | h2
        · rw [h1]; rfl
        · exact ih evs0 ftot0 hr v h2

/-- `distLoop` emits no debit markers. -/
theorem distLoop_no_debit (feeBps : Nat) :
    ∀ (l : List (Addr × Int)) (evs : List Ev) (ftot : Int),
      distLoop feeBps l = .ok (evs, ftot) → ∀ x, Ev.debit x ∉ evs := by
  intro l evs ftot h x hx
  have := distLoop_isTransfer feeBps l evs ftot h (Ev.debit x) hx
  simp [isTransfer] at this

/-- Full characterization of a successful `execute_pending_release`:
the pending proposal existed, its total was re-validated, the trace is
the per-entry net transfers, then the optional fee-collector transfer,
then the debit marker and the two storage removes, and the post-state
debits the balance, closes on zero and clears the pending proposal and
the release approvals. -/
theorem execute_ok (s s' : Storage) (evs : List Ev)
    (h : execute_pending_release s = .ok (s', evs)) :
    ∃ prop ts ftot,
      s.pendingRelease = some prop ∧
      distLoop s.feeBps prop.dists = .ok (ts, ftot) ∧
      0 < sum_amounts prop.dists ∧
      sum_amounts prop.dists ≤ s.escrow.balance ∧
      evs = ts ++
        (if 0 < ftot then [Ev.transfer contractAddr s.feeCollector ftot]
         else []) ++
        [Ev.debit (sum_amounts prop.dists), Ev.removePending,
         Ev.removeApprovals .release] ∧
      s' = { s with
             escrow := { s.escrow with
               balance := s.escrow.balance - sum_amounts prop.dists,
               closed := if s.escrow.balance - sum_amounts prop.dists == 0
                         then true else s.escrow.closed },
             pendingRelease := none,
             approvalsRelease := [] } := by
  cases hp : s.pendingRelease with
  | none => simp [execute_pending_release, hp] at h
  | some prop =>
    simp only [execute_pending_release, hp] at h
    split at h
    · exact absurd h (by simp)
    · rename_i hcond
      simp only [Bool.or_eq_true, decide_eq_true_eq, not_or, not_le,
                 not_lt] at hcond
      cases hr : distLoop s.feeBps prop.dists with
      | error er => rw [hr] at h; exact absurd h (by simp)
      | ok r =>
        obtain ⟨ts, ftot⟩ := r
        rw [hr] at h
        simp only [Except.ok.injEq, Prod.mk.injEq] at h
        refine ⟨prop, ts, ftot, rfl, hr, hcond.1, hcond.2, h.2.symm, ?_⟩
        rw [← h.1]

/-- A transfer event is not a clear. -/
theorem isClear_of_isTransfer (v : Ev) (h : isTransfer v = true) :
    isClear v = false := by
  cases v <;> simp [isTransfer, isClear] at h ⊢

/-- A trace that is transfers-then-rest with no clear on the left and
no transfer on the right satisfies `transfersBeforeClears`. -/
theorem tbc_of_decomp (evs ts cs : List Ev) (hevs : evs = ts ++ cs)
    (hts : ∀ v ∈ ts, isClear v = false)
    (hcs : ∀ v ∈ cs, isTransfer v = false) :
    transfersBeforeClears evs := by
  subst hevs
  refine ⟨⟨ts.length, by simp; omega⟩, ?_, ?_⟩
  · rw [List.take_left]; exact hts
  · rw [List.drop_left]; exact hcs

/-- The transfer part of a successful `execute_pending_release` trace
(the loop transfers plus the optional fee transfer) contains no clear
event. -/
theorem execute_front_no_clear (feeBps : Nat) (dists : List (Addr × Int))
    (ts : List Ev) (ftot : Int) (col : Addr)
    (hdl : distLoop feeBps dists = .ok (ts, ftot)) :
    ∀ v ∈ ts ++ (if 0 < ftot then [Ev.transfer contractAddr col ftot]
                 else []), isClear v = false := by
  intro v hv
  rcases List.mem_append.mp hv with h1 | h2
  · exact isClear_of_isTransfer v (distLoop_isTransfer feeBps dists ts ftot hdl v h1)
  · split at h2
    · simp at h2; rw [h2]; rfl
    · simp at h2

/-- C1 (amended): for every successful quorum-reaching approval call
(`approve_release`, `approve_refund`, `arbiter_release`,
`emergency_release`), the pending Proposal and the ApprovalSet are
cleared strictly AFTER all external token transfers of the invocation
(not before them); the whole invocation is one atomic transaction, and
the post-state has no pending proposal. -/
theorem c1_theorem (s : Storage) (op : Op) (s2 : Storage) (evs : List Ev)
    (hq : quorumCall s op) (h : exec s op = .ok (s2, evs)) :
    transfersBeforeClears evs ∧ Ev.removePending ∈ evs ∧
    s2.pendingRelease = none := by
  cases op with
  | depositOp src a => exact absurd hq (by simp [quorumCall])
  | openDisputeOp actor => exact absurd hq (by simp [quorumCall])
  | proposeReleaseOp signer dists => exact absurd hq (by simp [quorumCall])
  | proposeRefundOp signer dists => exact absurd hq (by simp [quorumCall])
  | refundTimeoutOp nowTs => exact absurd hq (by simp [quorumCall])
  | autoReleaseOp nowTs => exact absurd hq (by simp [quorumCall])
  | arbiterRefundOp signer dists => exact absurd hq (by simp [quorumCall])
  | approveReleaseOp signer =>
    simp only [quorumCall] at hq
    simp only [exec, approve_release] at h
    split at h
    · exact absurd h (by simp)
    · split at h
      · exact absurd h (by simp)
      · split at h
        · exact absurd h (by simp)
        · obtain ⟨prop, ts, ftot, hp, hdl, hpos, hle, hevs, hs2⟩ :=
            execute_ok _ _ _ h
          refine ⟨tbc_of_decomp evs _ _ hevs
            (execute_front_no_clear _ _ _ _ _ hdl) ?_, ?_, ?_⟩
          · intro v hv
            simp at hv
            rcases hv with rfl | rfl | rfl <;> rfl
          · rw [hevs]; simp
          · rw [hs2]
  | approveRefundOp signer =>
    simp only [quorumCall] at hq
    simp only [exec, approve_refund] at h
    split at h
    · exact absurd h (by simp)
    · split at h
      · exact absurd h (by simp)
      · split at h
        · exact absurd h (by simp)
        · cases hp : s.pendingRelease with
          | none => simp only [hp] at h; exact absurd h (by simp)
          | some prop =>
            simp only [hp] at h
            split at h
            · exact absurd h (by simp)
            · simp only [Except.ok.injEq, Prod.mk.injEq] at h
              obtain ⟨hs2, hevs⟩ := h
              refine ⟨tbc_of_decomp evs
                  (prop.dists.map (fun pa => Ev.transfer contractAddr pa.1 pa.2))
                  [Ev.debit (sum_amounts prop.dists), Ev.removePending,
                   Ev.removeApprovals .refund] hevs.symm ?_ ?_, ?_, ?_⟩
              · intro v hv
                obtain ⟨pa, _, hpa⟩ := List.mem_map.mp hv
                rw [← hpa]; rfl
              · intro v hv
                simp at hv
                rcases hv with rfl | rfl | rfl <;> rfl
              · rw [← hevs]; simp
              · rw [← hs2]
  | arbiterReleaseOp signer dists =>
    simp only [quorumCall] at hq
    simp only [exec, arbiter_release] at h
    split at h
    · exact absurd h (by simp)
    · split at h
      · exact absurd h (by simp)
      · split at h
        · exact absurd h (by simp)
        · split at h
          · exact absurd h (by simp)
          · split at h
            · exact absurd h (by simp)
            · cases hx : execute_pending_release
                  { s with
                    pendingRelease := some ⟨s.escrow.nonce + 1, dists⟩,
                    approvalsArbiter :=
                      push_unique s.approvalsArbiter signer } with
              | error er => simp only [hx] at h; exact absurd h (by simp)
              | ok r =>
                obtain ⟨s3, evs3⟩ := r
                simp only [hx, Except.ok.injEq, Prod.mk.injEq] at h
                obtain ⟨hs2, hevs⟩ := h
                obtain ⟨prop, ts, ftot, hp, hdl, hpos, hle, hevs3, hs3⟩ :=
                  execute_ok _ _ _ hx
                refine ⟨tbc_of_decomp evs
                    (ts ++ (if 0 < ftot then
                      [Ev.transfer contractAddr s.feeCollector ftot] else []))
                    [Ev.debit (sum_amounts prop.dists), Ev.removePending,
                     Ev.removeApprovals .release, Ev.removeApprovals .arbiter]
                    ?_ (execute_front_no_clear _ _ _ _ _ hdl) ?_, ?_, ?_⟩
                · rw [← hevs, hevs3]; simp
                · intro v hv
                  simp at hv
                  rcases hv with rfl | rfl | rfl | rfl <;> rfl
                · rw [← hevs, hevs3]; simp
                · rw [← hs2]
                  split <;> simp [hs3]
  | emergencyReleaseOp signer dists =>
    simp only [quorumCall] at hq
    simp only [exec, emergency_release] at h
    split at h
    · exact absurd h (by simp)
    · split at h
      · exact absurd h (by simp)
      · split at h
        · exact absurd h (by simp)
        · cases hx : execute_pending_release
              { s with
                pendingRelease := some ⟨s.escrow.nonce + 1, dists⟩,
                approvalsEmergency :=
                  push_unique s.approvalsEmergency signer } with
          | error er => simp only [hx] at h; exact absurd h (by simp)
          | ok r =>
            obtain ⟨s3, evs3⟩ := r
            simp only [hx, Except.ok.injEq, Prod.mk.injEq] at h
            obtain ⟨hs2, hevs⟩ := h
            obtain ⟨prop, ts, ftot, hp, hdl, hpos, hle, hevs3, hs3⟩ :=
              execute_ok _ _ _ hx
            refine ⟨tbc_of_decomp evs
                (ts ++ (if 0 < ftot then
                  [Ev.transfer contractAddr s.feeCollector ftot] else []))
                [Ev.debit (sum_amounts prop.dists), Ev.removePending,
                 Ev.removeApprovals .release, Ev.removeApprovals .emergency]
                ?_ (execute_front_no_clear _ _ _ _ _ hdl) ?_, ?_, ?_⟩
            · rw [← hevs, hevs3]; simp
            · intro v hv
              simp at hv
              rcases hv with rfl | rfl | rfl | rfl <;> rfl
            · rw [← hevs, hevs3]; simp
            · rw [← hs2]; simp [hs3]

/-- Concrete one-signer escrow with a pending release of the full
balance (fee 0), used to exhibit the order of transfers vs clears. -/
def c1S : Storage :=
  { feeBps := 0, feeCollector := 9,
    emergencyAdmins := [7], emergencyThreshold := 1,
    escrow :=
      { token := 8, payers := [1], payees := [2], release_signers := [3],
        release_threshold := 1, refund_signers := [4], refund_threshold := 1,
        arbiters := [5], arbiter_threshold := 1, auto_release_ts := none,
        expiry_ts := 1000, disputed := false, balance := 100,
        deposits := [(1, 100)], closed := false, nonce := 1 },
    pendingRelease := some ⟨1, [(2, 100)]⟩,
    approvalsRelease := [], approvalsRefund := [],
    approvalsArbiter := [], approvalsEmergency := [] }

/-- The trace of the quorum-reaching `approve_release` on `c1S`. -/
def c1Evs : List Ev :=
  [Ev.transfer contractAddr 2 100, Ev.debit 100, Ev.removePending,
   Ev.removeApprovals .release]

/-- The post-state of the quorum-reaching `approve_release` on `c1S`. -/
def c1Res : Storage :=
  { c1S with
    escrow := { c1S.escrow with balance := 0, closed := true },
    pendingRelease := none, approvalsRelease := [] }

/-- C1, counterexample: the claim that the Proposal and ApprovalSet
are cleared strictly before any external token transfer is false on
the code.  In this concrete quorum-reaching `approve_release` the
transfer is the first event of the trace and the two clears are the
last events. -/
theorem c1_counterexample :
    exec c1S (.approveReleaseOp 3) = .ok (c1Res, c1Evs) ∧
    ¬ clearsBeforeTransfers c1Evs := by
  exact ⟨rfl, by decide⟩

/-- Witness for `c1_theorem`: the concrete quorum-reaching
`approve_release` on `c1S`. -/
theorem c1_witness :
    transfersBeforeClears c1Evs ∧ Ev.removePending ∈ c1Evs ∧
    c1Res.pendingRelease = none :=
  c1_theorem c1S (.approveReleaseOp 3) c1Res c1Evs (by unfold quorumCall; decide) rfl

/-- C9: on an escrow with `closed = true`, every state-mutating entry
point panics, and since a panic aborts the transaction the stored
state is unchanged. -/
theorem c9_theorem (s : Storage) (op : Op) (hc : s.escrow.closed = true) :
    (∃ er, exec s op = .error er) ∧ run s op = s := by
  have hfail : ∃ er, exec s op = .error er := by
    cases op with
    | depositOp src a =>
      simp only [exec, deposit]
      by_cases h1 : a ≤ 0
      · exact ⟨.badAmount, by rw [if_pos h1]⟩
      · rw [if_neg h1, if_pos hc]; exact ⟨.closed, rfl⟩
    | openDisputeOp actor =>
      exact ⟨.closed, by simp only [exec, open_dispute]; rw [if_pos hc]⟩
    | proposeReleaseOp signer dists =>
      exact ⟨.closed, by simp only [exec, propose_release]; rw [if_pos hc]⟩
    | approveReleaseOp signer =>
      exact ⟨.closed, by simp only [exec, approve_release]; rw [if_pos hc]⟩
    | proposeRefundOp signer dists =>
      exact ⟨.closed, by simp only [exec, propose_refund]; rw [if_pos hc]⟩
    | approveRefundOp signer =>
      exact ⟨.closed, by simp only [exec, approve_refund]; rw [if_pos hc]⟩
    | refundTimeoutOp nowTs =>
      exact ⟨.closed, by simp only [exec, refund_timeout]; rw [if_pos hc]⟩
    | autoReleaseOp nowTs =>
      exact ⟨.closed, by simp only [exec, auto_release]; rw [if_pos hc]⟩
    | arbiterReleaseOp signer dists =>
      exact ⟨.closed, by simp only [exec, arbiter_release]; rw [if_pos hc]⟩
    | arbiterRefundOp signer dists =>
      exact ⟨.closed, by simp only [exec, arbiter_refund]; rw [if_pos hc]⟩
    | emergencyReleaseOp signer dists =>
      simp only [exec, emergency_release]
      by_cases h1 : is_member s.emergencyAdmins signer
      · rw [if_neg (by simp [h1]), if_pos hc]; exact ⟨.closed, rfl⟩
      · rw [if_pos (by simp [h1])]; exact ⟨.notEmergency, rfl⟩
  obtain ⟨er, her⟩ := hfail
  refine ⟨⟨er, her⟩, ?_⟩
  unfold run
  rw [her]

/-- A closed escrow in an otherwise well-formed configuration. -/
def c9S : Storage :=
  { feeBps := 250, feeCollector := 9,
    emergencyAdmins := [7], emergencyThreshold := 1,
    escrow :=
      { token := 8, payers := [1], payees := [2], release_signers := [3],
        release_threshold := 1, refund_signers := [4], refund_threshold := 1,
        arbiters := [5], arbiter_threshold := 1, auto_release_ts := none,
        expiry_ts := 1000, disputed := false, balance := 0,
        deposits := [], closed := true, nonce := 3 },
    pendingRelease := none,
    approvalsRelease := [], approvalsRefund := [],
    approvalsArbiter := [], approvalsEmergency := [] }

/-- Witness for `c9_theorem`: a deposit on the closed escrow `c9S`
panics and leaves the state unchanged. -/
theorem c9_witness :
    (∃ er, exec c9S (.depositOp 1 50) = .error er) ∧
    run c9S (.depositOp 1 50) = c9S :=
  c9_theorem c9S (.depositOp 1 50) rfl

/-! ## Conservation of balance -/

/-- Amount the operation transfers into the escrow when it is a
deposit; `0` for every other entry point. -/
def opDep : Op → Int
  | .depositOp _ a => a
  | _ => 0

theorem debitSum_append (l1 l2 : List Ev) :
    debitSum (l1 ++ l2) = debitSum l1 + debitSum l2 := by
  induction l1 with
  | nil => simp [debitSum]
  | cons v t ih =>
    cases v <;> simp [debitSum, ih] <;> ring

/-- A list of transfer events has no debit markers, hence zero debit
sum. -/
theorem debitSum_zero_of_transfers (l : List Ev)
    (h : ∀ v ∈ l, isTransfer v = true) : debitSum l = 0 := by
  induction l with
  | nil => rfl
  | cons v t ih =>
    have hv := h v (by simp)
    have ht := ih (fun w hw => h w (by simp [hw]))
    cases v <;> simp [isTransfer] at hv ⊢ <;> simp [debitSum, ht]

/-- The optional fee transfer has zero debit sum. -/
theorem debitSum_feeEvs (c : Addr) (ftot : Int) :
    debitSum (if 0 < ftot then [Ev.transfer contractAddr c ftot]
              else []) = 0 := by
  split <;> rfl

/-- Balance accounting of a successful `execute_pending_release`:
the balance decreases by exactly the debit sum of the trace, every
debit marker is a distribution total with `0 < total ≤ balance`, and
the resulting balance is nonnegative outright. -/
theorem execute_ok_balance (s s2 : Storage) (evs : List Ev)
    (h : execute_pending_release s = .ok (s2, evs)) :
    s2.escrow.balance = s.escrow.balance - debitSum evs ∧
    (∀ x, Ev.debit x ∈ evs → 0 < x ∧ x ≤ s.escrow.balance) ∧
    0 ≤ s2.escrow.balance := by
  obtain ⟨prop, ts, ftot, hp, hdl, hpos, hle, hevs, hs2⟩ := execute_ok _ _ _ h
  have hts := distLoop_isTransfer _ _ _ _ hdl
  have hsum : debitSum evs = sum_amounts prop.dists := by
    rw [hevs, debitSum_append, debitSum_append,
        debitSum_zero_of_transfers ts hts, debitSum_feeEvs]
    simp [debitSum]
  refine ⟨?_, ?_, ?_⟩
  · rw [hsum, hs2]
  · intro x hx
    rw [hevs] at hx
    rcases List.mem_append.mp hx with h1 | h2
    · rcases List.mem_append.mp h1 with h3 | h4
      · exact absurd (hts _ h3) (by simp [isTransfer])
      · revert h4; split <;> simp
    · simp at h2
      rw [h2]; exact ⟨hpos, hle⟩
  · rw [hs2]
    simpa [sub_nonneg] using hle

/-- Per-invocation balance accounting for every entry point except
`refund_timeout`: on success the new balance is the old plus the
deposit amount (for deposits) minus the debit sum of the trace; every
debit marker satisfies `0 < total ≤ balance-at-call`; and a
nonnegative balance stays nonnegative. -/
theorem exec_ok_balance (s : Storage) (op : Op) (s2 : Storage)
    (evs : List Ev) (hnt : isRefundTimeout op = false)
    (h : exec s op = .ok (s2, evs)) :
    s2.escrow.balance = s.escrow.balance + opDep op - debitSum evs ∧
    (∀ x, Ev.debit x ∈ evs → 0 < x ∧ x ≤ s.escrow.balance) ∧
    (0 ≤ s.escrow.balance → 0 ≤ s2.escrow.balance) := by
  cases op with
  | refundTimeoutOp nowTs => exact absurd hnt (by simp [isRefundTimeout])
  | depositOp src a =>
    simp only [exec, deposit] at h
    split at h
    · exact absurd h (by simp)
    · split at h
      · exact absurd h (by simp)
      · split at h
        · exact absurd h (by simp)
        · rename_i hpos _ _
          simp only [Except.ok.injEq, Prod.mk.injEq] at h
          obtain ⟨hs2, hevs⟩ := h
          rw [← hs2, ← hevs]
          refine ⟨by simp [opDep, debitSum], by simp, ?_⟩
          intro h0
          simp
          omega
  | openDisputeOp actor =>
    simp only [exec, open_dispute] at h
    split at h
    · exact absurd h (by simp)
    · split at h
      · exact absurd h (by simp)
      · simp only [Except.ok.injEq, Prod.mk.injEq] at h
        obtain ⟨hs2, hevs⟩ := h
        rw [← hs2, ← hevs]
        exact ⟨by simp [opDep, debitSum], by simp, fun h0 => by simpa⟩
  | proposeReleaseOp signer dists =>
    simp only [exec, propose_release] at h
    split at h
    · exact absurd h (by simp)
    · split at h
      · exact absurd h (by simp)
      · split at h
        · exact absurd h (by simp)
        · split at h
          · exact absurd h (by simp)
          · split at h
            · exact absurd h (by simp)
            · simp only [Except.ok.injEq, Prod.mk.injEq] at h
              obtain ⟨hs2, hevs⟩ := h
              rw [← hs2, ← hevs]
              exact ⟨by simp [opDep, debitSum], by simp, fun h0 => by simpa⟩
  | approveReleaseOp signer =>
    simp only [exec, approve_release] at h
    split at h
    · exact absurd h (by simp)
    · split at h
      · exact absurd h (by simp)
      · split at h
        · exact absurd h (by simp)
        · split at h
          · obtain ⟨h1, h2, h3⟩ := execute_ok_balance _ _ _ h
            exact ⟨by rw [h1]; simp [opDep], h2, fun _ => h3⟩
          · simp only [Except.ok.injEq, Prod.mk.injEq] at h
            obtain ⟨hs2, hevs⟩ := h
            rw [← hs2, ← hevs]
            exact ⟨by simp [opDep, debitSum], by simp, fun h0 => by simpa⟩
  | proposeRefundOp signer dists =>
    simp only [exec, propose_refund] at h
    split at h
    · exact absurd h (by simp)
    · split at h
      · exact absurd h (by simp)
      · split at h
        · exact absurd h (by simp)
        · split at h
          · exact absurd h (by simp)
          · split at h
            · exact absurd h (by simp)
            · simp only [Except.ok.injEq, Prod.mk.injEq] at h
              obtain ⟨hs2, hevs⟩ := h
              rw [← hs2, ← hevs]
              exact ⟨by simp [opDep, debitSum], by simp, fun h0 => by simpa⟩
  | approveRefundOp signer =>
    simp only [exec, approve_refund] at h
    split at h
    · exact absurd h (by simp)
    · split at h
      · exact absurd h (by simp)
      · split at h
        · exact absurd h (by simp)
        · split at h
          · -- quorum branch: inline gross-transfer execution
            rename_i hq
            cases hp : s.pendingRelease with
            | none => simp only [hp] at h; exact absurd h (by simp)
            | some prop =>
              simp only [hp] at h
              split at h
              · exact absurd h (by simp)
              · rename_i hcond
                simp only [Bool.or_eq_true, decide_eq_true_eq, not_or,
                           not_le, not_lt] at hcond
                simp only [Except.ok.injEq, Prod.mk.injEq] at h
                obtain ⟨hs2, hevs⟩ := h
                have hmap : ∀ v ∈ prop.dists.map
                    (fun pa => Ev.transfer contractAddr pa.1 pa.2),
                    isTransfer v = true := by
                  intro v hv
                  obtain ⟨pa, _, hpa⟩ := List.mem_map.mp hv
                  rw [← hpa]; rfl
                have hsum : debitSum evs = sum_amounts prop.dists := by
                  rw [← hevs, debitSum_append,
                      debitSum_zero_of_transfers _ hmap]
                  simp [debitSum]
                refine ⟨?_, ?_, ?_⟩
                · rw [hsum, ← hs2]
                  simp [opDep]
                · intro x hx
                  rw [← hevs] at hx
                  rcases List.mem_append.mp hx with h1 | h2
                  · exact absurd (hmap _ h1) (by simp [isTransfer])
                  · simp at h2
                    rw [h2]; exact ⟨hcond.1, hcond.2⟩
                · intro h0
                  rw [← hs2]
                  simp
                  omega
          · simp only [Except.ok.injEq, Prod.mk.injEq] at h
            obtain ⟨hs2, hevs⟩ := h
            rw [← hs2, ← hevs]
            exact ⟨by simp [opDep, debitSum], by simp, fun h0 => by simpa⟩
  | autoReleaseOp nowTs =>
    simp only [exec, auto_release] at h
    split at h
    · exact absurd h (by simp)
    · split at h
      · exact absurd h (by simp)
      · cases hts : s.escrow.auto_release_ts with
        | none => simp only [hts] at h; exact absurd h (by simp)
        | some t =>
          simp only [hts] at h
          split at h
          · exact absurd h (by simp)
          · split at h
            · exact absurd h (by simp)
            · obtain ⟨h1, h2, h3⟩ := execute_ok_balance _ _ _ h
              exact ⟨by rw [h1]; simp [opDep], h2, fun _ => h3⟩
  | arbiterReleaseOp signer dists =>
    simp only [exec, arbiter_release] at h
    split at h
    · exact absurd h (by simp)
    · split at h
      · exact absurd h (by simp)
      · split at h
        · exact absurd h (by simp)
        · split at h
          · exact absurd h (by simp)
          · split at h
            · exact absurd h (by simp)
            · split at h
              · -- quorum branch
                cases hx : execute_pending_release
                    { s with
                      pendingRelease := some ⟨s.escrow.nonce + 1, dists⟩,
                      approvalsArbiter :=
                        push_unique s.approvalsArbiter signer } with
                | error er => simp only [hx] at h; exact absurd h (by simp)
                | ok r =>
                  obtain ⟨s3, evs3⟩ := r
                  simp only [hx, Except.ok.injEq, Prod.mk.injEq] at h
                  obtain ⟨hs2, hevs⟩ := h
                  obtain ⟨hbal, hdeb, hnn⟩ := execute_ok_balance _ _ _ hx
                  have hsum : debitSum evs = debitSum evs3 := by
                    rw [← hevs, debitSum_append]
                    simp [debitSum]
                  have hbal2 : s2.escrow.balance = s3.escrow.balance := by
                    rw [← hs2]
                    split <;> simp
                  refine ⟨?_, ?_, ?_⟩
                  · rw [hbal2, hsum, hbal]
                    simp [opDep]
                  · intro x hx2
                    rw [← hevs] at hx2
                    rcases List.mem_append.mp hx2 with h1 | h2
                    · exact hdeb x h1
                    · simp at h2
                  · intro h0
                    rw [hbal2]
                    exact hnn
              · simp only [Except.ok.injEq, Prod.mk.injEq] at h
                obtain ⟨hs2, hevs⟩ := h
                rw [← hs2, ← hevs]
                exact ⟨by simp [opDep, debitSum], by simp, fun h0 => by simpa⟩
  | arbiterRefundOp signer dists =>
    simp only [exec, arbiter_refund] at h
    split at h
    · exact absurd h (by simp)
    · split at h
      · exact absurd h (by simp)
      · split at h
        · exact absurd h (by simp)
        · split at h
          · exact absurd h (by simp)
          · split at h
            · exact absurd h (by simp)
            · rename_i hcond
              simp only [Bool.or_eq_true, decide_eq_true_eq, not_or,
                         not_le, not_lt] at hcond
              split at h
              · simp only [Except.ok.injEq, Prod.mk.injEq] at h
                obtain ⟨hs2, hevs⟩ := h
                have hmap : ∀ v ∈ dists.map
                    (fun pa => Ev.transfer contractAddr pa.1 pa.2),
                    isTransfer v = true := by
                  intro v hv
                  obtain ⟨pa, _, hpa⟩ := List.mem_map.mp hv
                  rw [← hpa]; rfl
                have hsum : debitSum evs = sum_amounts dists := by
                  rw [← hevs, debitSum_append,
                      debitSum_zero_of_transfers _ hmap]
                  simp [debitSum]
                refine ⟨?_, ?_, ?_⟩
                · rw [hsum, ← hs2]
                  simp [opDep]
                · intro x hx
                  rw [← hevs] at hx
                  rcases List.mem_append.mp hx with h1 | h2
                  · exact absurd (hmap _ h1) (by simp [isTransfer])
                  · simp at h2
                    rw [h2]; exact ⟨hcond.1, hcond.2⟩
                · intro h0
                  rw [← hs2]
                  simp
                  omega
              · simp only [Except.ok.injEq, Prod.mk.injEq] at h
                obtain ⟨hs2, hevs⟩ := h
                rw [← hs2, ← hevs]
                exact ⟨by simp [opDep, debitSum], by simp, fun h0 => by simpa⟩
  | emergencyReleaseOp signer dists =>
    simp only [exec, emergency_release] at h
    split at h
    · exact absurd h (by simp)
    · split at h
      · exact absurd h (by simp)
      · split at h
        · exact absurd h (by simp)
        · split at h
          · cases hx : execute_pending_release
                { s with
                  pendingRelease := some ⟨s.escrow.nonce + 1, dists⟩,
                  approvalsEmergency :=
                    push_unique s.approvalsEmergency signer } with
            | error er => simp only [hx] at h; exact absurd h (by simp)
            | ok r =>
              obtain ⟨s3, evs3⟩ := r
              simp only [hx, Except.ok.injEq, Prod.mk.injEq] at h
              obtain ⟨hs2, hevs⟩ := h
              obtain ⟨hbal, hdeb, hnn⟩ := execute_ok_balance _ _ _ hx
              have hsum : debitSum evs = debitSum evs3 := by
                rw [← hevs, debitSum_append]
                simp [debitSum]
              have hbal2 : s2.escrow.balance = s3.escrow.balance := by
                rw [← hs2]
              refine ⟨?_, ?_, ?_⟩
              · rw [hbal2, hsum, hbal]
                simp [opDep]
              · intro x hx2
                rw [← hevs] at hx2
                rcases List.mem_append.mp hx2 with h1 | h2
                · exact hdeb x h1
                · simp at h2
              · intro h0
                rw [hbal2]
                exact hnn
          · simp only [Except.ok.injEq, Prod.mk.injEq] at h
            obtain ⟨hs2, hevs⟩ := h
            rw [← hs2, ← hevs]
            exact ⟨by simp [opDep, debitSum], by simp, fun h0 => by simpa⟩

/-- Lists whose debit markers are all in range pass `debitOk`. -/
theorem all_debitOk_of (bal : Int) (evs : List Ev)
    (h : ∀ x, Ev.debit x ∈ evs → 0 < x ∧ x ≤ bal) :
    evs.all (debitOk bal) = true := by
  rw [List.all_eq_true]
  intro v hv
  cases v with
  | debit x => exact decide_eq_true (h x hv)
  | transfer a b c => rfl
  | removePending => rfl
  | removeApprovals f => rfl

/-- C5: conservation of balance.  For every sequence of invocations
that does not contain `refund_timeout` (i.e. consists of deposits,
executed distributions and no-op/validation-failing calls), the final
balance equals the initial balance plus all successful deposit amounts
minus all executed distribution totals; a nonnegative balance stays
nonnegative; and every executed distribution had
`0 < total ≤ balance` at the start of its invocation. -/
theorem c5_theorem : ∀ (ops : List Op) (s : Storage),
    0 ≤ s.escrow.balance →
    (∀ op ∈ ops, isRefundTimeout op = false) →
    (runAll s ops).escrow.balance =
      s.escrow.balance + depositSumTrace s ops - debitSumTrace s ops ∧
    0 ≤ (runAll s ops).escrow.balance ∧
    debitsValid s ops = true := by
  intro ops
  induction ops with
  | nil =>
    intro s h0 hnt
    exact ⟨by simp [runAll, depositSumTrace, debitSumTrace, debitSum],
           by simpa [runAll] using h0, rfl⟩
  | cons op t ih =>
    intro s h0 hnt
    have hnthd : isRefundTimeout op = false := hnt op (by simp)
    have hnttl : ∀ o ∈ t, isRefundTimeout o = false :=
      fun o ho => hnt o (by simp [ho])
    cases hx : exec s op with
    | error er =>
      have hrun : run s op = s := by simp [run, hx]
      have hevs : evsOf s op = [] := by simp [evsOf, hx]
      have hdep : depositAmt s op = 0 := by
        cases op <;> first | rfl | simp [depositAmt, hx]
      obtain ⟨ha, hb, hc⟩ := ih s h0 hnttl
      refine ⟨?_, ?_, ?_⟩
      · simp only [runAll, depositSumTrace, debitSumTrace, hrun, hevs,
                   hdep, debitSum]
        rw [ha]; ring
      · simpa [runAll, hrun] using hb
      · simp only [debitsValid, hrun, hevs, List.all_nil, Bool.true_and]
        exact hc
    | ok r =>
      obtain ⟨s2, evs⟩ := r
      have hrun : run s op = s2 := by simp [run, hx]
      have hevs : evsOf s op = evs := by simp [evsOf, hx]
      have hdep : depositAmt s op = opDep op := by
        cases op <;> first | rfl | simp [depositAmt, opDep, hx]
      obtain ⟨h1, h2, h3⟩ := exec_ok_balance s op s2 evs hnthd hx
      obtain ⟨ha, hb, hc⟩ := ih s2 (h3 h0) hnttl
      refine ⟨?_, ?_, ?_⟩
      · simp only [runAll, depositSumTrace, debitSumTrace, hrun, hevs, hdep]
        rw [ha, h1]; ring
      · simpa [runAll, hrun] using hb
      · simp only [debitsValid, hrun, hevs, Bool.and_eq_true]
        exact ⟨all_debitOk_of _ _ h2, hc⟩

/-- A fresh escrow used to exercise the conservation theorem on a
concrete deposit / propose / approve trace. -/
def c5S : Storage :=
  { feeBps := 250, feeCollector := 9,
    emergencyAdmins := [7], emergencyThreshold := 1,
    escrow :=
      { token := 8, payers := [1], payees := [2], release_signers := [3, 4],
        release_threshold := 2, refund_signers := [4], refund_threshold := 1,
        arbiters := [5], arbiter_threshold := 1, auto_release_ts := none,
        expiry_ts := 1000, disputed := false, balance := 0,
        deposits := [], closed := false, nonce := 0 },
    pendingRelease := none,
    approvalsRelease := [], approvalsRefund := [],
    approvalsArbiter := [], approvalsEmergency := [] }

/-- The concrete trace for the conservation witness: deposit 400,
propose a 300 release, second signer approves (quorum, executes). -/
def c5Ops : List Op :=
  [.depositOp 1 400, .proposeReleaseOp 3 [(2, 300)], .approveReleaseOp 4]

/-- Witness for `c5_theorem` on the concrete trace `c5Ops`:
400 deposited, 300 distributed, final balance 100. -/
theorem c5_witness :
    (runAll c5S c5Ops).escrow.balance =
      c5S.escrow.balance + depositSumTrace c5S c5Ops -
        debitSumTrace c5S c5Ops ∧
    0 ≤ (runAll c5S c5Ops).escrow.balance ∧
    debitsValid c5S c5Ops = true :=
  c5_theorem c5Ops c5S (by decide) (by decide)

/-! ## Proposal storage, approval seeding, emergency validation -/

/-- C2 (amended): `propose_refund` stores its proposal into the same
shared `PendingRelease` slot that release proposals use — the contract
has no refund-specific proposal slot — so it overwrites any pending
release proposal.  Only the ApprovalSet slot (`ApprovalsRefund`) is
refund-specific, and the escrow record itself is left unchanged (the
bumped nonce is not persisted). -/
theorem c2_theorem (s : Storage) (signer : Addr) (dists : List (Addr × Int))
    (s2 : Storage) (evs : List Ev)
    (h : exec s (.proposeRefundOp signer dists) = .ok (s2, evs)) :
    s2.pendingRelease = some ⟨s.escrow.nonce + 1, dists⟩ ∧
    s2.approvalsRefund = [signer] ∧
    s2.approvalsRelease = s.approvalsRelease ∧
    s2.escrow = s.escrow := by
  simp only [exec, propose_refund] at h
  split at h
  · exact absurd h (by simp)
  · split at h
    · exact absurd h (by simp)
    · split at h
      · exact absurd h (by simp)
      · split at h
        · exact absurd h (by simp)
        · split at h
          · exact absurd h (by simp)
          · simp only [Except.ok.injEq, Prod.mk.injEq] at h
            rw [← h.1]
            exact ⟨rfl, rfl, rfl, rfl⟩

/-- An escrow with a live release proposal, to show `propose_refund`
overwrites it. -/
def c2S : Storage :=
  { feeBps := 0, feeCollector := 9,
    emergencyAdmins := [7], emergencyThreshold := 1,
    escrow :=
      { token := 8, payers := [1], payees := [2], release_signers := [3],
        release_threshold := 2, refund_signers := [4], refund_threshold := 2,
        arbiters := [5], arbiter_threshold := 1, auto_release_ts := none,
        expiry_ts := 1000, disputed := false, balance := 100,
        deposits := [(1, 100)], closed := false, nonce := 1 },
    pendingRelease := some ⟨1, [(2, 100)]⟩,
    approvalsRelease := [3], approvalsRefund := [],
    approvalsArbiter := [], approvalsEmergency := [] }

/-- The post-state of `propose_refund` on `c2S`. -/
def c2Res : Storage :=
  { c2S with pendingRelease := some ⟨2, [(1, 50)]⟩,
             approvalsRefund := [4] }

/-- C2, counterexample: on `c2S` the release proposal slot holds a
pending release; a successful `propose_refund` replaces its content,
so the claim that a refund proposal lives in a distinct slot and
leaves the pending release proposal unchanged is false. -/
theorem c2_counterexample :
    c2S.pendingRelease = some ⟨1, [(2, 100)]⟩ ∧
    exec c2S (.proposeRefundOp 4 [(1, 50)]) = .ok (c2Res, []) ∧
    c2Res.pendingRelease ≠ some ⟨1, [(2, 100)]⟩ :=
  ⟨rfl, rfl, by decide⟩

/-- Witness for `c2_theorem` at the concrete call on `c2S`. -/
theorem c2_witness :
    c2Res.pendingRelease = some ⟨c2S.escrow.nonce + 1, [(1, 50)]⟩ ∧
    c2Res.approvalsRefund = [4] ∧
    c2Res.approvalsRelease = c2S.approvalsRelease ∧
    c2Res.escrow = c2S.escrow :=
  c2_theorem c2S 4 [(1, 50)] c2Res [] rfl

/-- C3 (amended): on a successful proposal submission,
`propose_release` and `propose_refund` reset their flow's ApprovalSet
to exactly `[signer]` (no carry-over); but `arbiter_release`,
`arbiter_refund` and `emergency_release` instead add the signer to the
existing ApprovalSet, so old approvals carry over (shown here below
quorum). -/
theorem c3_theorem (s : Storage) (signer : Addr)
    (dists : List (Addr × Int)) :
    (∀ s2 evs, exec s (.proposeReleaseOp signer dists) = .ok (s2, evs) →
       s2.approvalsRelease = [signer]) ∧
    (∀ s2 evs, exec s (.proposeRefundOp signer dists) = .ok (s2, evs) →
       s2.approvalsRefund = [signer]) ∧
    ((push_unique s.approvalsArbiter signer).length <
        s.escrow.arbiter_threshold →
     ∀ s2 evs, exec s (.arbiterReleaseOp signer dists) = .ok (s2, evs) →
       s2.approvalsArbiter = push_unique s.approvalsArbiter signer) ∧
    ((push_unique s.approvalsArbiter signer).length <
        s.escrow.arbiter_threshold →
     ∀ s2 evs, exec s (.arbiterRefundOp signer dists) = .ok (s2, evs) →
       s2.approvalsArbiter = push_unique s.approvalsArbiter signer) ∧
    ((push_unique s.approvalsEmergency signer).length <
        s.emergencyThreshold →
     ∀ s2 evs, exec s (.emergencyReleaseOp signer dists) = .ok (s2, evs) →
       s2.approvalsEmergency = push_unique s.approvalsEmergency signer) := by
  refine ⟨?_, ?_, ?_, ?_, ?_⟩
  · intro s2 evs h
    simp only [exec, propose_release] at h
    split at h
    · exact absurd h (by simp)
    · split at h
      · exact absurd h (by simp)
      · split at h
        · exact absurd h (by simp)
        · split at h
          · exact absurd h (by simp)
          · split at h
            · exact absurd h (by simp)
            · simp only [Except.ok.injEq, Prod.mk.injEq] at h
              rw [← h.1]
  · intro s2 evs h
    simp only [exec, propose_refund] at h
    split at h
    · exact absurd h (by simp)
    · split at h
      · exact absurd h (by simp)
      · split at h
        · exact absurd h (by simp)
        · split at h
          · exact absurd h (by simp)
          · split at h
            · exact absurd h (by simp)
            · simp only [Except.ok.injEq, Prod.mk.injEq] at h
              rw [← h.1]
  · intro hlt s2 evs h
    simp only [exec, arbiter_release] at h
    split at h
    · exact absurd h (by simp)
    · split at h
      · exact absurd h (by simp)
      · split at h
        · exact absurd h (by simp)
        · split at h
          · exact absurd h (by simp)
          · split at h
            · exact absurd h (by simp)
            · split at h
              · rename_i hge
                exact absurd hge (by omega)
              · simp only [Except.ok.injEq, Prod.mk.injEq] at h
                rw [← h.1]
  · intro hlt s2 evs h
    simp only [exec, arbiter_refund] at h
    split at h
    · exact absurd h (by simp)
    · split at h
      · exact absurd h (by simp)
      · split at h
        · exact absurd h (by simp)
        · split at h
          · exact absurd h (by simp)
          · split at h
            · exact absurd h (by simp)
            · split at h
              · rename_i hge
                exact absurd hge (by omega)
              · simp only [Except.ok.injEq, Prod.mk.injEq] at h
                rw [← h.1]
  · intro hlt s2 evs h
    simp only [exec, emergency_release] at h
    split at h
    · exact absurd h (by simp)
    · split at h
      · exact absurd h (by simp)
      · split at h
        · exact absurd h (by simp)
        · split at h
          · rename_i hge
            exact absurd hge (by omega)
          · simp only [Except.ok.injEq, Prod.mk.injEq] at h
            rw [← h.1]

/-- A disputed escrow with a pre-existing arbiter approval by `6`,
arbiter threshold 3, used to show approval carry-over. -/
def c3S : Storage :=
  { feeBps := 0, feeCollector := 9,
    emergencyAdmins := [7], emergencyThreshold := 1,
    escrow :=
      { token := 8, payers := [1], payees := [2],
        release_signers := [3], release_threshold := 1,
        refund_signers := [4], refund_threshold := 1,
        arbiters := [5, 6, 11], arbiter_threshold := 3,
        auto_release_ts := none, expiry_ts := 1000, disputed := true,
        balance := 100, deposits := [(1, 100)], closed := false,
        nonce := 1 },
    pendingRelease := none,
    approvalsRelease := [], approvalsRefund := [],
    approvalsArbiter := [6], approvalsEmergency := [] }

/-- The post-state of the below-quorum `arbiter_release` on `c3S`. -/
def c3Res : Storage :=
  { c3S with pendingRelease := some ⟨2, [(2, 40)]⟩,
             approvalsArbiter := [6, 5] }

/-- C3, counterexample: a below-quorum `arbiter_release` by signer `5`
on `c3S` leaves the pre-existing approval by `6` in place — the
resulting ApprovalSet is `[6, 5]`, not exactly the proposing signer. -/
theorem c3_counterexample :
    exec c3S (.arbiterReleaseOp 5 [(2, 40)]) = .ok (c3Res, []) ∧
    c3Res.approvalsArbiter ≠ [5] :=
  ⟨rfl, by decide⟩

/-- Witness for `c3_theorem`: the release-propose conjunct at a
concrete successful `propose_release` on `c3Res`-free state `c2S`,
and the arbiter conjunct at the concrete below-quorum call on `c3S`. -/
theorem c3_witness :
    c3Res.approvalsArbiter = push_unique c3S.approvalsArbiter 5 :=
  (c3_theorem c3S 5 [(2, 40)]).2.2.1 (by decide) c3Res [] rfl

/-- C4 (amended): `emergency_release` performs no recipient-membership
validation at all: whenever the signer is an emergency admin, the
escrow is open and `0 < total ≤ balance`, the call succeeds (shown
below quorum: it stores the proposal), no matter what addresses the
distribution names. -/
theorem c4_theorem (s : Storage) (signer : Addr)
    (dists : List (Addr × Int))
    (hm : is_member s.emergencyAdmins signer = true)
    (hc : s.escrow.closed = false)
    (hpos : 0 < sum_amounts dists)
    (hle : sum_amounts dists ≤ s.escrow.balance)
    (hq : (push_unique s.approvalsEmergency signer).length <
          s.emergencyThreshold) :
    exec s (.emergencyReleaseOp signer dists) =
      .ok ({ s with
             pendingRelease := some ⟨s.escrow.nonce + 1, dists⟩,
             approvalsEmergency := push_unique s.approvalsEmergency signer },
           []) := by
  simp only [exec, emergency_release]
  rw [if_neg (by simp [hm]), if_neg (by simp [hc]),
      if_neg (by simp; omega), if_neg (by omega)]

/-- An open escrow whose only payee is `2` and only payer is `1`;
address `99` is in neither set. -/
def c4S : Storage :=
  { feeBps := 0, feeCollector := 9,
    emergencyAdmins := [7, 10], emergencyThreshold := 2,
    escrow :=
      { token := 8, payers := [1], payees := [2], release_signers := [3],
        release_threshold := 1, refund_signers := [4], refund_threshold := 1,
        arbiters := [5], arbiter_threshold := 1, auto_release_ts := none,
        expiry_ts := 1000, disputed := false, balance := 100,
        deposits := [(1, 100)], closed := false, nonce := 1 },
    pendingRelease := none,
    approvalsRelease := [], approvalsRefund := [],
    approvalsArbiter := [], approvalsEmergency := [] }

/-- C4, counterexample: `99` is not a payee of `c4S`, yet
`emergency_release` with a distribution naming `99` succeeds (storing
the proposal) instead of failing — the claimed recipient-membership
validation does not exist. -/
theorem c4_counterexample :
    is_member c4S.escrow.payees 99 = false ∧
    exec c4S (.emergencyReleaseOp 7 [(99, 50)]) =
      .ok ({ c4S with pendingRelease := some ⟨2, [(99, 50)]⟩,
                      approvalsEmergency := [7] }, []) :=
  ⟨rfl, rfl⟩

/-- Witness for `c4_theorem` at the concrete call on `c4S`. -/
theorem c4_witness :
    exec c4S (.emergencyReleaseOp 7 [(99, 50)]) =
      .ok ({ c4S with
             pendingRelease := some ⟨c4S.escrow.nonce + 1, [(99, 50)]⟩,
             approvalsEmergency := push_unique c4S.approvalsEmergency 7 },
           []) :=
  c4_theorem c4S 7 [(99, 50)] rfl rfl (by decide) (by decide) (by decide)

/-- C10: `approve_release` by a valid signer on an open, undisputed
escrow with no pending release proposal succeeds and records the
signer while the resulting approval count stays below the threshold;
as soon as the count reaches the threshold the call panics on the
`unwrap` of the missing proposal instead of returning a clean
validation error. -/
theorem c10_theorem (s : Storage) (signer : Addr)
    (hm : is_member s.escrow.release_signers signer = true)
    (hc : s.escrow.closed = false) (hd : s.escrow.disputed = false)
    (hp : s.pendingRelease = none) :
    ((push_unique s.approvalsRelease signer).length <
        s.escrow.release_threshold →
      exec s (.approveReleaseOp signer) =
        .ok ({ s with
               approvalsRelease := push_unique s.approvalsRelease signer },
             [])) ∧
    (s.escrow.release_threshold ≤
        (push_unique s.approvalsRelease signer).length →
      exec s (.approveReleaseOp signer) = .error .unwrapNone) := by
  constructor
  · intro hlt
    simp only [exec, approve_release]
    rw [if_neg (by simp [hc]), if_neg (by simp [hd]),
        if_neg (by simp [hm]), if_neg (by omega)]
  · intro hge
    simp only [exec, approve_release]
    rw [if_neg (by simp [hc]), if_neg (by simp [hd]),
        if_neg (by simp [hm]), if_pos hge]
    simp [execute_pending_release, hp]

/-- An open escrow with release threshold 1, no pending release
proposal and no prior approvals. -/
def c10S : Storage :=
  { feeBps := 0, feeCollector := 9,
    emergencyAdmins := [7], emergencyThreshold := 1,
    escrow :=
      { token := 8, payers := [1], payees := [2], release_signers := [3],
        release_threshold := 1, refund_signers := [4], refund_threshold := 1,
        arbiters := [5], arbiter_threshold := 1, auto_release_ts := none,
        expiry_ts := 1000, disputed := false, balance := 100,
        deposits := [(1, 100)], closed := false, nonce := 0 },
    pendingRelease := none,
    approvalsRelease := [], approvalsRefund := [],
    approvalsArbiter := [], approvalsEmergency := [] }

/-- Witness for `c10_theorem`: on `c10S` the first approval reaches
the threshold and the call panics on the missing proposal. -/
theorem c10_witness :
    exec c10S (.approveReleaseOp 3) = .error .unwrapNone :=
  (c10_theorem c10S 3 rfl rfl rfl rfl).2 (by decide)

/-! ## Fee computation -/

/-- For a nonnegative amount the fee is nonnegative. -/
theorem feeOf_nonneg (amt : Int) (bps : Nat) (h0 : 0 ≤ amt) :
    0 ≤ feeOf amt bps :=
  Int.tdiv_nonneg (by positivity) (by norm_num)

/-- For a nonnegative amount and `bps ≤ 10000` the fee does not exceed
the amount. -/
theorem feeOf_le (amt : Int) (bps : Nat) (h0 : 0 ≤ amt)
    (hbps : bps ≤ 10000) : feeOf amt bps ≤ amt := by
  unfold feeOf
  rw [Int.tdiv_eq_ediv (by positivity) (by norm_num)]
  calc amt * (bps : Int) / 10000
      ≤ amt * 10000 / 10000 := by
        apply Int.ediv_le_ediv (by norm_num)
        exact mul_le_mul_of_nonneg_left (by exact_mod_cast hbps) h0
    _ = amt := Int.mul_ediv_cancel amt (by norm_num)

/-- On a list of nonnegative amounts with `bps ≤ 10000` the fee loop
never panics. -/
theorem distLoop_ok_of_nonneg (bps : Nat) (hbps : bps ≤ 10000) :
    ∀ (l : List (Addr × Int)), (∀ pa ∈ l, 0 ≤ pa.2) →
    ∃ ts ftot, distLoop bps l = .ok (ts, ftot) := by
  intro l
  induction l with
  | nil => exact fun _ => ⟨[], 0, rfl⟩
  | cons hd tl ih =>
    intro hnn
    obtain ⟨dst, amt⟩ := hd
    obtain ⟨ts, ftot, hts⟩ := ih (fun pa hpa => hnn pa (by simp [hpa]))
    have hnet : ¬ netOf amt bps < 0 := by
      have := feeOf_le amt bps (hnn (dst, amt) (by simp)) hbps
      unfold netOf
      omega
    refine ⟨Ev.transfer contractAddr dst (netOf amt bps) :: ts,
            (if 0 < feeOf amt bps then feeOf amt bps else 0) + ftot, ?_⟩
    simp only [distLoop, hts, if_neg hnet]

/-- C6: the fee floors per entry.  For `0 ≤ amount` and
`feeBps ≤ 10000` the fee is the floor of `amount * feeBps / 10000`,
the net is `amount - fee`, and both are in range; the spec's concrete
instances 300 ↦ (fee 7, net 293) and 100 ↦ (fee 2, net 98) at 250 bps
hold; and in `execute_pending_release` the accumulated fee total is
sent to the collector in a single transfer appended after the
per-entry net transfers, skipped entirely when the total is not
positive. -/
theorem c6_theorem (amt : Int) (bps : Nat) (h0 : 0 ≤ amt)
    (hbps : bps ≤ 10000) :
    feeOf amt bps = Int.fdiv (amt * (bps : Int)) 10000 ∧
    netOf amt bps = amt - feeOf amt bps ∧
    0 ≤ feeOf amt bps ∧ feeOf amt bps ≤ amt ∧
    (feeOf 300 250 = 7 ∧ netOf 300 250 = 293 ∧
     feeOf 100 250 = 2 ∧ netOf 100 250 = 98) ∧
    (∀ (s s2 : Storage) (evs : List Ev) (prop : ReleaseProposal)
       (ts : List Ev) (ftot : Int),
       execute_pending_release s = .ok (s2, evs) →
       s.pendingRelease = some prop →
       distLoop s.feeBps prop.dists = .ok (ts, ftot) →
       evs = ts ++
         (if 0 < ftot then [Ev.transfer contractAddr s.feeCollector ftot]
          else []) ++
         [Ev.debit (sum_amounts prop.dists), Ev.removePending,
          Ev.removeApprovals .release]) := by
  refine ⟨?_, rfl, feeOf_nonneg amt bps h0, feeOf_le amt bps h0 hbps,
          ⟨by decide, by decide, by decide, by decide⟩, ?_⟩
  · unfold feeOf
    rw [Int.tdiv_eq_ediv (by positivity) (by norm_num),
        Int.fdiv_eq_ediv _ (by norm_num)]
  · intro s s2 evs prop ts ftot hex hp hdl
    obtain ⟨prop2, ts2, ftot2, hp2, hdl2, _, _, hevs, _⟩ :=
      execute_ok _ _ _ hex
    rw [hp] at hp2
    obtain rfl : prop = prop2 := by injection hp2
    rw [hdl] at hdl2
    obtain ⟨rfl, rfl⟩ : ts = ts2 ∧ ftot = ftot2 := by
      have := hdl2
      simp at this
      exact ⟨this.1, this.2⟩
    exact hevs

/-- Witness for `c6_theorem` at amount 300, 250 bps. -/
theorem c6_witness :
    feeOf 300 250 = Int.fdiv (300 * (250 : Int)) 10000 ∧
    netOf 300 250 = 300 - feeOf 300 250 ∧
    0 ≤ feeOf 300 250 ∧ feeOf 300 250 ≤ 300 ∧
    (feeOf 300 250 = 7 ∧ netOf 300 250 = 293 ∧
     feeOf 100 250 = 2 ∧ netOf 100 250 = 98) ∧
    (∀ (s s2 : Storage) (evs : List Ev) (prop : ReleaseProposal)
       (ts : List Ev) (ftot : Int),
       execute_pending_release s = .ok (s2, evs) →
       s.pendingRelease = some prop →
       distLoop s.feeBps prop.dists = .ok (ts, ftot) →
       evs = ts ++
         (if 0 < ftot then [Ev.transfer contractAddr s.feeCollector ftot]
          else []) ++
         [Ev.debit (sum_amounts prop.dists), Ev.removePending,
          Ev.removeApprovals .release]) :=
  c6_theorem 300 250 (by decide) (by decide)

/-! ## Auto-release equal split -/

theorem buildSplit_length (base : Int) :
    ∀ (ps : List Addr) (rem : Int),
      (buildSplit base ps rem).length = ps.length := by
  intro ps
  induction ps with
  | nil => intro rem; rfl
  | cons p t ih =>
    intro rem
    unfold buildSplit
    split <;> simp [ih]

/-- Sum of the split: each payee gets `base`, plus one unit for each
of the first `rem` payees. -/
theorem buildSplit_sum (base : Int) :
    ∀ (ps : List Addr) (rem : Int), 0 ≤ rem → rem ≤ (ps.length : Int) →
      sum_amounts (buildSplit base ps rem) =
        base * (ps.length : Int) + rem := by
  intro ps
  induction ps with
  | nil =>
    intro rem h1 h2
    simp at h2
    have hz : rem = 0 := le_antisymm h2 h1
    simp [buildSplit, sum_amounts, hz]
  | cons p t ih =>
    intro rem h1 h2
    simp only [List.length_cons] at h2
    unfold buildSplit
    split
    · rename_i hpos
      have hrec := ih (rem - 1) (by omega) (by push_cast at h2 ⊢; omega)
      simp only [sum_amounts, hrec, List.length_cons]
      push_cast
      ring
    · rename_i hneg
      have hz : rem = 0 := by omega
      subst hz
      have hrec := ih 0 le_rfl (by positivity)
      simp only [sum_amounts, hrec, List.length_cons]
      push_cast
      ring

/-- Entry `i` of the split is payee `i` with `base` plus one extra
unit exactly when `i < rem` (the earliest payees get the remainder). -/
theorem buildSplit_getElem (base : Int) :
    ∀ (ps : List Addr) (rem : Int), 0 ≤ rem →
      ∀ (i : Nat) (p : Addr), ps[i]? = some p →
      (buildSplit base ps rem)[i]? =
        some (p, base + if (i : Int) < rem then 1 else 0) := by
  intro ps
  induction ps with
  | nil => intro rem _ i p hp; simp at hp
  | cons q t ih =>
    intro rem hrem i p hp
    unfold buildSplit
    cases i with
    | zero =>
      simp only [List.getElem?_cons_zero, Option.some.injEq] at hp
      subst hp
      split
      · rename_i hpos
        simp only [List.getElem?_cons_zero, Option.some.injEq]
        rw [if_pos (by exact_mod_cast hpos)]
      · rename_i hneg
        simp only [List.getElem?_cons_zero, Option.some.injEq]
        rw [if_neg (by exact_mod_cast hneg)]
        simp
    | succ j =>
      simp only [List.getElem?_cons_succ] at hp
      split
      · rename_i hpos
        simp only [List.getElem?_cons_succ]
        rw [ih (rem - 1) (by omega) j p hp]
        have hiff : ((j : Int) < rem - 1) ↔ (((j + 1 : Nat) : Int) < rem) := by
          push_cast
          omega
        rw [if_congr hiff rfl rfl]
      · rename_i hneg
        simp only [List.getElem?_cons_succ]
        rw [ih rem hrem j p hp]
        have hiff : ((j : Int) < rem) ↔ (((j + 1 : Nat) : Int) < rem) := by
          push_cast
          omega
        rw [if_congr hiff rfl rfl]

/-- With a nonnegative base every split amount is nonnegative. -/
theorem buildSplit_nonneg (base : Int) (hb : 0 ≤ base) :
    ∀ (ps : List Addr) (rem : Int), ∀ pa ∈ buildSplit base ps rem,
      0 ≤ pa.2 := by
  intro ps
  induction ps with
  | nil => intro rem pa hpa; simp [buildSplit] at hpa
  | cons q t ih =>
    intro rem pa hpa
    unfold buildSplit at hpa
    split at hpa <;> rcases List.mem_cons.mp hpa with h1 | h2
    · rw [h1]; simp; omega
    · exact ih _ pa h2
    · rw [h1]; exact hb
    · exact ih _ pa h2

/-- Successful execution exists whenever the pending proposal has a
valid positive total within balance, nonnegative amounts, and the fee
rate is in range. -/
theorem execute_ok_exists (s : Storage) (prop : ReleaseProposal)
    (hp : s.pendingRelease = some prop)
    (hpos : 0 < sum_amounts prop.dists)
    (hle : sum_amounts prop.dists ≤ s.escrow.balance)
    (hnn : ∀ pa ∈ prop.dists, 0 ≤ pa.2)
    (hbps : s.feeBps ≤ 10000) :
    ∃ s2 evs, execute_pending_release s = .ok (s2, evs) := by
  obtain ⟨ts, ftot, hdl⟩ := distLoop_ok_of_nonneg s.feeBps hbps prop.dists hnn
  unfold execute_pending_release
  simp only [hp]
  rw [if_neg (by simp; omega), hdl]
  exact ⟨_, _, rfl⟩

/-- C7: on an open, undisputed escrow with positive balance, a set and
reached `auto_release_ts`, in-range fee, and nonempty payees,
`auto_release` executes the equal split: the computed distribution
sums exactly to the balance, its `i`-th entry pays payee `i`
`⌊balance / n⌋` plus one extra unit exactly when `i < balance mod n`
(the earliest payees), and the call succeeds, debits the whole balance
and closes the escrow. -/
theorem c7_theorem (s : Storage) (nowTs t : Nat)
    (hc : s.escrow.closed = false) (hd : s.escrow.disputed = false)
    (hts : s.escrow.auto_release_ts = some t) (htime : t ≤ nowTs)
    (hbal : 0 < s.escrow.balance) (hbps : s.feeBps ≤ 10000)
    (hne : s.escrow.payees ≠ []) :
    sum_amounts (buildSplit
        (Int.tdiv s.escrow.balance (s.escrow.payees.length : Int))
        s.escrow.payees
        (s.escrow.balance -
          Int.tdiv s.escrow.balance (s.escrow.payees.length : Int) *
            (s.escrow.payees.length : Int))) = s.escrow.balance ∧
    (∀ (i : Nat) (p : Addr), s.escrow.payees[i]? = some p →
      (buildSplit
        (Int.tdiv s.escrow.balance (s.escrow.payees.length : Int))
        s.escrow.payees
        (s.escrow.balance -
          Int.tdiv s.escrow.balance (s.escrow.payees.length : Int) *
            (s.escrow.payees.length : Int)))[i]? =
        some (p, Int.tdiv s.escrow.balance (s.escrow.payees.length : Int) +
          (if (i : Int) < s.escrow.balance % (s.escrow.payees.length : Int)
           then 1 else 0))) ∧
    (∃ s2 evs, exec s (.autoReleaseOp nowTs) = .ok (s2, evs) ∧
      s2.escrow.balance = 0 ∧ s2.escrow.closed = true) := by
  have hb0 : 0 ≤ s.escrow.balance := le_of_lt hbal
  have hn0 : 0 < ((s.escrow.payees.length : Nat) : Int) := by
    exact_mod_cast List.length_pos.mpr hne
  have htdiv : Int.tdiv s.escrow.balance (s.escrow.payees.length : Int) =
      s.escrow.balance / (s.escrow.payees.length : Int) :=
    Int.tdiv_eq_ediv hb0 (le_of_lt hn0)
  have hremod : s.escrow.balance -
      Int.tdiv s.escrow.balance (s.escrow.payees.length : Int) *
        (s.escrow.payees.length : Int) =
      s.escrow.balance % (s.escrow.payees.length : Int) := by
    rw [htdiv, Int.emod_def]
    ring
  have hrem0 : 0 ≤ s.escrow.balance -
      Int.tdiv s.escrow.balance (s.escrow.payees.length : Int) *
        (s.escrow.payees.length : Int) := by
    rw [hremod]
    exact Int.emod_nonneg _ (ne_of_gt hn0)
  have hremlt : s.escrow.balance -
      Int.tdiv s.escrow.balance (s.escrow.payees.length : Int) *
        (s.escrow.payees.length : Int) < (s.escrow.payees.length : Int) := by
    rw [hremod]
    exact Int.emod_lt_of_pos _ hn0
  have hsum : sum_amounts (buildSplit
      (Int.tdiv s.escrow.balance (s.escrow.payees.length : Int))
      s.escrow.payees
      (s.escrow.balance -
        Int.tdiv s.escrow.balance (s.escrow.payees.length : Int) *
          (s.escrow.payees.length : Int))) = s.escrow.balance := by
    rw [buildSplit_sum _ _ _ hrem0 (le_of_lt hremlt)]
    ring
  refine ⟨hsum, ?_, ?_⟩
  · intro i p hp
    rw [buildSplit_getElem _ _ _ hrem0 i p hp, hremod]
  · have hbase0 : 0 ≤ Int.tdiv s.escrow.balance
        (s.escrow.payees.length : Int) :=
      Int.tdiv_nonneg hb0 (le_of_lt hn0)
    simp only [exec, auto_release]
    rw [if_neg (by simp [hc]), if_neg (by simp [hd])]
    simp only [hts]
    rw [if_neg (not_lt.mpr htime), if_neg (not_le.mpr hn0)]
    obtain ⟨s2, evs, hex⟩ := execute_ok_exists
      { s with
        escrow :=
          { s.escrow with
            auto_release_ts := some t
            nonce := s.escrow.nonce + 1 },
        pendingRelease := some
          ⟨s.escrow.nonce + 1,
           buildSplit
             (Int.tdiv s.escrow.balance (s.escrow.payees.length : Int))
             s.escrow.payees
             (s.escrow.balance -
               Int.tdiv s.escrow.balance (s.escrow.payees.length : Int) *
                 (s.escrow.payees.length : Int))⟩,
        approvalsRelease :=
          List.replicate s.escrow.release_threshold contractAddr }
      ⟨s.escrow.nonce + 1,
       buildSplit (Int.tdiv s.escrow.balance (s.escrow.payees.length : Int))
         s.escrow.payees
         (s.escrow.balance -
           Int.tdiv s.escrow.balance (s.escrow.payees.length : Int) *
             (s.escrow.payees.length : Int))⟩
      rfl (by simpa [hsum] using hbal) (by simp [hsum])
      (buildSplit_nonneg _ hbase0 _ _) hbps
    obtain ⟨prop2, ts2, ftot2, hp2, hdl2, hpos2, hle2, hevs2, hs2⟩ :=
      execute_ok _ _ _ hex
    refine ⟨s2, evs, hex, ?_, ?_⟩
    · rw [hs2]
      simp only []
      have : prop2.dists = buildSplit
          (Int.tdiv s.escrow.balance (s.escrow.payees.length : Int))
          s.escrow.payees
          (s.escrow.balance -
            Int.tdiv s.escrow.balance (s.escrow.payees.length : Int) *
              (s.escrow.payees.length : Int)) := by
        have := hp2
        simp only [Option.some.injEq] at this
        rw [← this]
      rw [this, hsum]
      ring
    · rw [hs2]
      have : prop2.dists = buildSplit
          (Int.tdiv s.escrow.balance (s.escrow.payees.length : Int))
          s.escrow.payees
          (s.escrow.balance -
            Int.tdiv s.escrow.balance (s.escrow.payees.length : Int) *
              (s.escrow.payees.length : Int)) := by
        have h2 := hp2
        simp only [Option.some.injEq] at h2
        rw [← h2]
      simp only [this, hsum]
      simp

/-- An open escrow with two payees, balance 1001 and a reached
auto-release timestamp. -/
def c7S : Storage :=
  { feeBps := 0, feeCollector := 9,
    emergencyAdmins := [7], emergencyThreshold := 1,
    escrow :=
      { token := 8, payers := [1], payees := [2, 12], release_signers := [3],
        release_threshold := 1, refund_signers := [4], refund_threshold := 1,
        arbiters := [5], arbiter_threshold := 1,
        auto_release_ts := some 1500, expiry_ts := 3000, disputed := false,
        balance := 1001, deposits := [(1, 1001)], closed := false,
        nonce := 0 },
    pendingRelease := none,
    approvalsRelease := [], approvalsRefund := [],
    approvalsArbiter := [], approvalsEmergency := [] }

/-- Witness for `c7_theorem`: on `c7S` (balance 1001, two payees) the
split is `[(2, 501), (12, 500)]`, sums to 1001, and `auto_release`
closes the escrow at balance 0. -/
theorem c7_witness :
    (sum_amounts (buildSplit
        (Int.tdiv c7S.escrow.balance (c7S.escrow.payees.length : Int))
        c7S.escrow.payees
        (c7S.escrow.balance -
          Int.tdiv c7S.escrow.balance (c7S.escrow.payees.length : Int) *
            (c7S.escrow.payees.length : Int))) = c7S.escrow.balance ∧
     (∀ (i : Nat) (p : Addr), c7S.escrow.payees[i]? = some p →
       (buildSplit
         (Int.tdiv c7S.escrow.balance (c7S.escrow.payees.length : Int))
         c7S.escrow.payees
         (c7S.escrow.balance -
           Int.tdiv c7S.escrow.balance (c7S.escrow.payees.length : Int) *
             (c7S.escrow.payees.length : Int)))[i]? =
         some (p, Int.tdiv c7S.escrow.balance
             (c7S.escrow.payees.length : Int) +
           (if (i : Int) <
              c7S.escrow.balance % (c7S.escrow.payees.length : Int)
            then 1 else 0))) ∧
     (∃ s2 evs, exec c7S (.autoReleaseOp 1500) = .ok (s2, evs) ∧
       s2.escrow.balance = 0 ∧ s2.escrow.closed = true)) ∧
    buildSplit (Int.tdiv c7S.escrow.balance (c7S.escrow.payees.length : Int))
      c7S.escrow.payees
      (c7S.escrow.balance -
        Int.tdiv c7S.escrow.balance (c7S.escrow.payees.length : Int) *
          (c7S.escrow.payees.length : Int)) = [(2, 501), (12, 500)] :=
  ⟨c7_theorem c7S 1500 1500 rfl rfl rfl (by decide) (by decide) (by decide)
     (by decide), by decide⟩

/-! ## Refund on timeout -/

theorem sum_amounts_nonneg (l : List (Addr × Int))
    (h : ∀ pa ∈ l, 0 < pa.2) : 0 ≤ sum_amounts l := by
  induction l with
  | nil => exact le_refl 0
  | cons hd t ih =>
    have h1 := h hd (by simp)
    have h2 := ih (fun pa hpa => h pa (by simp [hpa]))
    obtain ⟨p, a⟩ := hd
    simp only [sum_amounts]
    simp at h1
    omega

/-- Unfolding equation for one refund-loop step with positive
remaining balance. -/
theorem refundLoop_cons (remaining : Int) (p : Addr) (a : Int)
    (t : List (Addr × Int)) (hr : ¬ remaining ≤ 0) :
    refundLoop remaining ((p, a) :: t) =
      ((if 0 < (if a ≤ remaining then a else remaining)
        then [Ev.transfer contractAddr p
          (if a ≤ remaining then a else remaining)] else []) ++
        (refundLoop
          (remaining - (if a ≤ remaining then a else remaining)) t).1,
       (refundLoop
          (remaining - (if a ≤ remaining then a else remaining)) t).2) := by
  conv_lhs => rw [refundLoop]
  rw [if_neg hr]

/-- When the deposits are positive and the starting balance is their
exact sum, the refund loop refunds every payer their full deposit, in
order, and ends with remaining balance `0`. -/
theorem refundLoop_full :
    ∀ (l : List (Addr × Int)), (∀ pa ∈ l, 0 < pa.2) →
      refundLoop (sum_amounts l) l =
        (l.map (fun pa => Ev.transfer contractAddr pa.1 pa.2), 0) := by
  intro l
  induction l with
  | nil => intro _; rfl
  | cons hd t ih =>
    intro h
    obtain ⟨p, a⟩ := hd
    have ha : 0 < a := by simpa using h (p, a) (by simp)
    have hst : 0 ≤ sum_amounts t :=
      sum_amounts_nonneg t (fun pa hpa => h pa (by simp [hpa]))
    have hsum : sum_amounts ((p, a) :: t) = a + sum_amounts t := rfl
    rw [hsum, refundLoop_cons _ _ _ _ (by omega),
        if_pos (show a ≤ a + sum_amounts t by omega), if_pos ha,
        show a + sum_amounts t - a = sum_amounts t by ring,
        ih (fun pa hpa => h pa (by simp [hpa]))]
    simp

/-- The remaining balance after the refund loop stays within
`[0, remaining]` when the starting balance is nonnegative. -/
theorem refundLoop_bounds :
    ∀ (l : List (Addr × Int)) (remaining : Int), 0 ≤ remaining →
      (∀ pa ∈ l, 0 < pa.2) →
      0 ≤ (refundLoop remaining l).2 ∧
      (refundLoop remaining l).2 ≤ remaining := by
  intro l
  induction l with
  | nil => intro remaining h0 _; exact ⟨h0, le_refl _⟩
  | cons hd t ih =>
    intro remaining h0 hdep
    obtain ⟨p, a⟩ := hd
    have ha : 0 < a := by simpa using hdep (p, a) (by simp)
    have hdt : ∀ pa ∈ t, 0 < pa.2 := fun pa hpa => hdep pa (by simp [hpa])
    by_cases hr : remaining ≤ 0
    · unfold refundLoop
      rw [if_pos hr]
      exact ⟨h0, le_refl _⟩
    · rw [refundLoop_cons _ _ _ _ hr]
      by_cases hle : a ≤ remaining
      · rw [if_pos hle]
        have := ih (remaining - a) (by omega) hdt
        exact ⟨this.1, by omega⟩
      · rw [if_neg hle]
        have := ih (remaining - remaining) (by omega) hdt
        exact ⟨this.1, by omega⟩

/-- Specification-side description of the timeout refunds, following
the spec's words: walking the recorded deposits in order, each payer
receives `min(their recorded deposit, remaining balance)` — with the
remaining balance clamped at zero, so the refunds stop once the
running balance is exhausted — and a token transfer is issued only
for a positive refund.  To be compared with the source-derived
`refundLoop`. -/
def cappedRefunds (remaining : Int) : List (Addr × Int) → List Ev
  | [] => []
  | (p, a) :: t =>
    (if 0 < min a (max 0 remaining)
     then [Ev.transfer contractAddr p (min a (max 0 remaining))] else []) ++
      cappedRefunds (remaining - min a (max 0 remaining)) t

/-- Unfolding equation for one step of the capped-refund
specification. -/
theorem cappedRefunds_cons (r : Int) (p : Addr) (a : Int)
    (t : List (Addr × Int)) :
    cappedRefunds r ((p, a) :: t) =
      (if 0 < min a (max 0 r)
       then [Ev.transfer contractAddr p (min a (max 0 r))] else []) ++
        cappedRefunds (r - min a (max 0 r)) t := by
  conv_lhs => rw [cappedRefunds]

/-- The refund loop on an exhausted balance refunds nothing. -/
theorem refundLoop_zero : ∀ (t : List (Addr × Int)),
    refundLoop 0 t = ([], 0) := by
  intro t
  cases t with
  | nil => rfl
  | cons hd tl =>
    obtain ⟨p, a⟩ := hd
    unfold refundLoop
    rw [if_pos le_rfl]

/-- With positive deposits and an exhausted balance the capped-refund
specification also refunds nothing. -/
theorem cappedRefunds_zero :
    ∀ (t : List (Addr × Int)), (∀ pa ∈ t, 0 < pa.2) →
      ∀ r : Int, r ≤ 0 → cappedRefunds r t = [] := by
  intro t
  induction t with
  | nil => intro _ r _; rfl
  | cons hd tl ih =>
    intro h r hr
    obtain ⟨p, a⟩ := hd
    have ha : 0 < a := by simpa using h (p, a) (by simp)
    have hamt : min a (max 0 r) = 0 := by
      rw [max_eq_left hr]
      exact min_eq_right (le_of_lt ha)
    rw [cappedRefunds_cons, hamt, if_neg (by omega),
        show r - 0 = r by ring,
        ih (fun pa hpa => h pa (by simp [hpa])) r hr]
    rfl

/-- The source's refund loop computes exactly the capped-refund
specification: for a nonnegative starting balance and positive
recorded deposits, the emitted transfers give each payer
`min(deposit, remaining)` in deposit-list order, and the final
remaining balance is `max 0 (balance − Σdeposits)`. -/
theorem refundLoop_capped :
    ∀ (l : List (Addr × Int)) (remaining : Int), 0 ≤ remaining →
      (∀ pa ∈ l, 0 < pa.2) →
      refundLoop remaining l =
        (cappedRefunds remaining l,
         max 0 (remaining - sum_amounts l)) := by
  intro l
  induction l with
  | nil =>
    intro remaining h0 _
    unfold refundLoop cappedRefunds
    rw [show remaining - sum_amounts [] = remaining by
          simp [sum_amounts],
        max_eq_right h0]
  | cons hd t ih =>
    intro remaining h0 hdep
    obtain ⟨p, a⟩ := hd
    have ha : 0 < a := by simpa using hdep (p, a) (by simp)
    have hdt : ∀ pa ∈ t, 0 < pa.2 := fun pa hpa => hdep pa (by simp [hpa])
    have hst : 0 ≤ sum_amounts t := sum_amounts_nonneg t hdt
    have hsum : sum_amounts ((p, a) :: t) = a + sum_amounts t := rfl
    by_cases hr : remaining ≤ 0
    · have hz : remaining = 0 := le_antisymm hr h0
      subst hz
      rw [refundLoop_zero, cappedRefunds_cons,
          show min a (max 0 (0 : Int)) = 0 by
            simp [min_eq_right (le_of_lt ha)],
          if_neg (by omega), show (0 : Int) - 0 = 0 by ring,
          cappedRefunds_zero t hdt 0 le_rfl, hsum,
          show max 0 (0 - (a + sum_amounts t)) = 0 from
            max_eq_left (by omega)]
      rfl
    · rw [refundLoop_cons _ _ _ _ hr]
      have hmax : max 0 remaining = remaining := max_eq_right h0
      by_cases hle : a ≤ remaining
      · rw [if_pos hle, if_pos ha, ih (remaining - a) (by omega) hdt,
            cappedRefunds_cons,
            show min a (max 0 remaining) = a by
              rw [hmax]; exact min_eq_left hle,
            if_pos ha, hsum,
            show remaining - (a + sum_amounts t) =
              remaining - a - sum_amounts t by ring]
      · rw [if_neg hle, if_pos (by omega),
            show remaining - remaining = (0 : Int) by ring,
            refundLoop_zero, cappedRefunds_cons,
            show min a (max 0 remaining) = remaining by
              rw [hmax]; exact min_eq_right (le_of_lt (not_le.mp hle)),
            if_pos (by omega),
            show remaining - remaining = (0 : Int) by ring,
            cappedRefunds_zero t hdt 0 le_rfl, hsum,
            show max 0 (remaining - (a + sum_amounts t)) = 0 from
              max_eq_left (by omega)]

/-- C8: `refund_timeout` on an open, undisputed escrow with positive
recorded deposits fails before `expiry_ts` with no state change; from
`expiry_ts` on it refunds each payer `min(their recorded deposit,
remaining balance)` in deposit-list order with no fee, stopping once
the running balance is exhausted (trace = `cappedRefunds`), leaves
the balance at `max 0 (balance − Σdeposits)` and closes the escrow
exactly when that is zero; in particular when the deposits still sum
to the balance every payer is refunded their full deposit and the
escrow closes at balance 0. -/
theorem c8_theorem (s : Storage) (nowTs : Nat)
    (hc : s.escrow.closed = false) (hd : s.escrow.disputed = false)
    (hb0 : 0 ≤ s.escrow.balance)
    (hdep : ∀ pa ∈ s.escrow.deposits, 0 < pa.2) :
    (nowTs < s.escrow.expiry_ts →
      exec s (.refundTimeoutOp nowTs) = .error .notExpired) ∧
    (s.escrow.expiry_ts ≤ nowTs →
      ∃ s2, exec s (.refundTimeoutOp nowTs) =
          .ok (s2, cappedRefunds s.escrow.balance s.escrow.deposits) ∧
        s2.escrow.balance =
          max 0 (s.escrow.balance - sum_amounts s.escrow.deposits) ∧
        (s2.escrow.closed = true ↔ s2.escrow.balance = 0)) ∧
    (s.escrow.expiry_ts ≤ nowTs →
     sum_amounts s.escrow.deposits = s.escrow.balance →
      exec s (.refundTimeoutOp nowTs) =
        .ok ({ s with escrow :=
                 { s.escrow with balance := 0, closed := true } },
             s.escrow.deposits.map
               (fun pa => Ev.transfer contractAddr pa.1 pa.2))) := by
  refine ⟨?_, ?_, ?_⟩
  · intro hlt
    simp only [exec, refund_timeout]
    rw [if_neg (by simp [hc]), if_neg (by simp [hd]), if_pos hlt]
  · intro hge
    simp only [exec, refund_timeout]
    rw [if_neg (by simp [hc]), if_neg (by simp [hd]),
        if_neg (not_lt.mpr hge),
        refundLoop_capped s.escrow.deposits s.escrow.balance hb0 hdep]
    refine ⟨_, rfl, rfl, ?_⟩
    by_cases h : max 0 (s.escrow.balance - sum_amounts s.escrow.deposits) = 0
    · simp [h]
    · simp [h, hc]
  · intro hge hsum
    simp only [exec, refund_timeout]
    rw [if_neg (by simp [hc]), if_neg (by simp [hd]),
        if_neg (not_lt.mpr hge), ← hsum, refundLoop_full _ hdep]
    simp

/-- The spec's timeout scenario: single payer deposit of 600,
`expiry_ts = 2000`, untouched balance 600. -/
def c8S : Storage :=
  { feeBps := 250, feeCollector := 9,
    emergencyAdmins := [7], emergencyThreshold := 1,
    escrow :=
      { token := 8, payers := [1], payees := [2], release_signers := [3],
        release_threshold := 1, refund_signers := [4], refund_threshold := 1,
        arbiters := [5], arbiter_threshold := 1, auto_release_ts := none,
        expiry_ts := 2000, disputed := false, balance := 600,
        deposits := [(1, 600)], closed := false, nonce := 0 },
    pendingRelease := none,
    approvalsRelease := [], approvalsRefund := [],
    approvalsArbiter := [], approvalsEmergency := [] }

/-- The partially-reduced-balance scenario: the payer's recorded
deposit is 600 but an intervening release left only 250 in escrow, so
the refund must be capped at 250. -/
def c8S2 : Storage :=
  { c8S with escrow := { c8S.escrow with balance := 250 } }

/-- Witness for `c8_theorem`: on `c8S`, `refund_timeout` at time 1000
fails, and at time 2000 refunds exactly 600 to the payer and closes
the escrow; on `c8S2` (deposit 600, balance reduced to 250) the
refund is capped at 250, i.e. `min(600, 250)`, and the escrow closes
at balance `max 0 (250 − 600) = 0`. -/
theorem c8_witness :
    exec c8S (.refundTimeoutOp 1000) = .error .notExpired ∧
    exec c8S (.refundTimeoutOp 2000) =
      .ok ({ c8S with escrow :=
               { c8S.escrow with balance := 0, closed := true } },
           c8S.escrow.deposits.map
             (fun pa => Ev.transfer contractAddr pa.1 pa.2)) ∧
    (∃ s2, exec c8S2 (.refundTimeoutOp 2000) =
        .ok (s2, cappedRefunds c8S2.escrow.balance c8S2.escrow.deposits) ∧
      s2.escrow.balance =
        max 0 (c8S2.escrow.balance - sum_amounts c8S2.escrow.deposits) ∧
      (s2.escrow.closed = true ↔ s2.escrow.balance = 0)) ∧
    cappedRefunds c8S2.escrow.balance c8S2.escrow.deposits =
      [Ev.transfer contractAddr 1 250] :=
  ⟨(c8_theorem c8S 1000 rfl rfl (by decide) (by decide)).1 (by decide),
   (c8_theorem c8S 2000 rfl rfl (by decide) (by decide)).2.2 (by decide)
     (by decide),
   (c8_theorem c8S2 2000 rfl rfl (by decide) (by decide)).2.1 (by decide),
   by decide⟩

end MarketX
